import Mathlib

/-! # Sitemap crawler of `roberveral/gophercises`

A shallow embedding of the site crawler (`sitemap/main.go`) and of the link
extractor it uses (`link/link.go`), with the properties of the crawl proved
over the embedding.

Conventions of the embedding.

* A Go slice is a `List`; a `nil` slice returned next to an error is `none`.
* A Go `error` value is an `Option ε`: `none` is the `nil` error.
* `url.URL` values are compared by `bfs` with `==` only, so the breadth-first
  search is embedded over any type `α` with decidable equality.
* The expansion function handed to `bfs` is a function `α → List α × Option ε`:
  the pair `(children, err)` that the Go function value returns for a URL.
* The search loop `for len(queue) > 0` need not terminate, so it is given a
  fuel: the number of loop iterations it may still run.  `none` is "out of
  fuel", never a result of the Go program.
* A Go `string` is a `String`.  The functions of the Go standard library and of
  `golang.org/x/net/html` that the code calls are embedded from their
  documented behaviour (`strings.Fields`, `strings.Join`, `strings.HasPrefix`,
  `http.Redirect`, `path.Clean`, `path.Split`) or are parameters of the
  embedding (`url.Parse`, `URL.String`, `http.Get`, `html.Parse`,
  `errors.Wrap`).
-/

set_option linter.unusedSectionVars false
set_option linter.dupNamespace false

/-! ## Package `link`: the link extractor (`link/link.go`) -/

namespace Link

/-- The node kinds of `html.NodeType` (package `golang.org/x/net/html`), in the
order of the library's constants. -/
inductive NodeType where
  | ErrorNode | TextNode | DocumentNode | ElementNode | CommentNode | DoctypeNode | RawNode
  deriving DecidableEq, Repr

/-- The type `html.Attribute`. -/
structure Attribute where
  Namespace : String
  Key : String
  Val : String
  deriving DecidableEq, Repr

/-- The part of `html.Node` that `link.go` reads: `Type`, `DataAtom`, `Data`,
`Attr`, and the children, which Go reaches through `FirstChild` and
`NextSibling` and which are a list here, in sibling order. -/
inductive Node where
  | mk (type : NodeType) (dataAtom : Nat) (data : String) (attr : List Attribute)
      (children : List Node)

/-- The field `Type` of a node. -/
def Node.type : Node → NodeType
  | .mk type _ _ _ _ => type

/-- The field `DataAtom` of a node. -/
def Node.dataAtom : Node → Nat
  | .mk _ dataAtom _ _ _ => dataAtom

/-- The field `Data` of a node. -/
def Node.data : Node → String
  | .mk _ _ data _ _ => data

/-- The field `Attr` of a node. -/
def Node.attr : Node → List Attribute
  | .mk _ _ _ attr _ => attr

/-- The children of a node, first child first. -/
def Node.children : Node → List Node
  | .mk _ _ _ _ children => children

/-- The constant `atom.A` (package `golang.org/x/net/html/atom`): the code of
the tag name `a`. -/
def atom_A : Nat := 0x1

/-- The type `Link`: a link `<a href="...">` of an HTML document. -/
structure Link where
  Href : String
  Text : String
  deriving DecidableEq, Repr

/-- The predicate `unicode.IsSpace`: the white space characters at which
`strings.Fields` splits. -/
def isSpace (c : Char) : Bool :=
  c = '\t' || c = '\n' || c.toNat = 0x0B || c.toNat = 0x0C || c = '\r' || c = ' ' ||
  c.toNat = 0x85 || c.toNat = 0xA0 || c.toNat = 0x1680 ||
  (0x2000 ≤ c.toNat && c.toNat ≤ 0x200A) || c.toNat = 0x2028 || c.toNat = 0x2029 ||
  c.toNat = 0x202F || c.toNat = 0x205F || c.toNat = 0x3000

/-- The scan of `strings.Fields`: `cur` is the field being read; a white space
character closes a non-empty field, and the end of the string closes the last
one. -/
def fieldsFrom (cur : List Char) : List Char → List String
  | [] => if cur = [] then [] else [String.mk cur]
  | c :: cs =>
    if isSpace c then
      if cur = [] then fieldsFrom [] cs else String.mk cur :: fieldsFrom [] cs
    else fieldsFrom (cur ++ [c]) cs

/-- The function `strings.Fields(s)`: the maximal runs of characters of `s` that
are not white space. -/
def strings_Fields (s : String) : List String :=
  fieldsFrom [] s.data

/-- The function `strings.Join(elems, sep)`. -/
def strings_Join : List String → String → String
  | [], _ => ""
  | [a], _ => a
  | a :: b :: rest, sep => a ++ sep ++ strings_Join (b :: rest) sep

/-- The function `findHref(attrs)`: the value of the first attribute with key
`href` and `true`, or the empty string and `false`. -/
def findHref : List Attribute → String × Bool
  | [] => ("", false)
  | attr :: rest => if attr.Key = "href" then (attr.Val, true) else findHref rest

mutual
/-- The function `extractText(node)`: the data of a text node, nothing for a
node that is neither text nor element, and for an element the texts of its
children appended in order, then split at white space and joined by one
space. -/
def extractText : Node → String
  | .mk type _ data _ children =>
    if type = NodeType.TextNode then data
    else if type ≠ NodeType.ElementNode then ""
    else strings_Join (strings_Fields (extractTextLoop "" children)) " "
/-- The loop `for c := node.FirstChild; c != nil; c = c.NextSibling` of
`extractText`, with the accumulator `text`. -/
def extractTextLoop (text : String) : List Node → String
  | [] => text
  | c :: rest => extractTextLoop (text ++ extractText c) rest
end

/-- The function `buildLink(node)`. -/
def buildLink (node : Node) : Link :=
  { Href := (findHref node.attr).1, Text := extractText node }

mutual
/-- The function `findLinks(node)`: an anchor element yields its link and is not
searched further; any other node yields the links of its children, in
order. -/
def findLinks : Node → List Link
  | .mk type dataAtom data attr children =>
    if type = NodeType.ElementNode ∧ dataAtom = atom_A then
      [buildLink (.mk type dataAtom data attr children)]
    else findLinksLoop [] children
/-- The loop `for c := node.FirstChild; c != nil; c = c.NextSibling` of
`findLinks`, with the accumulator `links`. -/
def findLinksLoop (links : List Link) : List Node → List Link
  | [] => links
  | c :: rest => findLinksLoop (links ++ findLinks c) rest
end

/-! ### The extractor as the specification words it -/

/-- An anchor element: an element node whose tag is `a`. -/
def isAnchor (n : Node) : Bool :=
  n.type = NodeType.ElementNode && n.dataAtom = atom_A

mutual
/-- Every node of the tree in document pre-order (a node before its children,
children left to right), each paired with its proper ancestors, nearest
first. -/
def preorder (ancestors : List Node) : Node → List (Node × List Node)
  | .mk type dataAtom data attr children =>
    (.mk type dataAtom data attr children, ancestors) ::
      preorderList (.mk type dataAtom data attr children :: ancestors) children
/-- The pre-order listing of a list of siblings. -/
def preorderList (ancestors : List Node) : List Node → List (Node × List Node)
  | [] => []
  | c :: rest => preorder ancestors c ++ preorderList ancestors rest
end

/-- An anchor element with no anchor element among its proper ancestors. -/
def isTopAnchor (p : Node × List Node) : Bool :=
  isAnchor p.1 && p.2.all (fun a => !isAnchor a)

/-- One link for each anchor without an anchor ancestor, in listing order. -/
def topAnchorLinks (l : List (Node × List Node)) : List Link :=
  (l.filter isTopAnchor).map (fun p => buildLink p.1)

mutual
/-- The raw content of every text node of the subtree, concatenated in
document order. -/
def descendantText : Node → String
  | .mk type _ data _ children =>
    (if type = NodeType.TextNode then data else "") ++ descendantTextList children
/-- The raw text of a list of siblings. -/
def descendantTextList : List Node → String
  | [] => ""
  | c :: rest => descendantText c ++ descendantTextList rest
end

/-- Every run of white space collapsed to one space, leading and trailing
white space trimmed. -/
def collapseSpace (s : String) : String :=
  strings_Join (strings_Fields s) " "

/-- Words joined by single spaces. -/
def joinWords : List (List Char) → List Char
  | [] => []
  | [w] => w
  | w :: v :: rest => w ++ ' ' :: joinWords (v :: rest)

/-- A word: a non-empty run of characters none of which is white space. -/
def IsWord (w : List Char) : Prop :=
  w ≠ [] ∧ ∀ c ∈ w, isSpace c = false

/-! ### Concrete documents -/

/-- A text node. -/
def textNode (s : String) : Node :=
  .mk NodeType.TextNode 0 s [] []

/-- The anchor `<a href="/x">foo<b> bar</b></a>` as `html.Parse` builds it: the
text `foo` followed by an element `b` (an atom other than `atom.A`) that holds
the text ` bar`. -/
def anchorFooBar : Node :=
  .mk NodeType.ElementNode atom_A "a" [⟨"", "href", "/x"⟩]
    [textNode "foo", .mk NodeType.ElementNode 0x101 "b" [] [textNode " bar"]]

/-- The function `Parse(r)`.  The library functions it calls are parameters:
`htmlParse` is `html.Parse` and `errorsWrap` is `errors.Wrap`.  The result is
the pair of the Go function, the `nil` slice being the empty list. -/
def Parse {ρ ε : Type} (htmlParse : ρ → Except ε Node) (errorsWrap : ε → String → ε)
    (r : ρ) : List Link × Option ε :=
  match htmlParse r with
  | .error err => ([], some (errorsWrap err "Unable to parse HTML"))
  | .ok doc => (findLinks doc, none)

/-- An anchor element with the given attributes and no content. -/
def anchorNode (attr : List Attribute) : Node :=
  .mk NodeType.ElementNode atom_A "a" attr []

/-- The anchor `<a href="/dog-cat">dog cat <!-- commented text --></a>` of the
test `TestParseEx4`, with a line break and indentation around the text. -/
def anchorDogCat : Node :=
  .mk NodeType.ElementNode atom_A "a" [⟨"", "href", "/dog-cat"⟩]
    [textNode "\n    dog   cat\t", .mk NodeType.CommentNode 0 " commented text " [] [],
      textNode "\n  "]

end Link

/-! ## Package `urlshort`: the redirect handlers (`urlshort/handler.go`) -/

namespace Urlshort

/-- The type `pathMapping`: a path and the URL it is mapped to. -/
structure pathMapping where
  Path : String
  URL : String
  deriving DecidableEq, Repr

/-- The constant `http.StatusFound`. -/
def StatusFound : Nat := 302

/-- The loop `for _, mapping := range pathMappings` of `buildMap`, on the map
built so far.  A Go `map[string]string` is a function `String → Option String`:
`none` at the strings that are not a key. -/
def buildMapLoop (pathsToUrls : String → Option String) :
    List pathMapping → String → Option String
  | [] => pathsToUrls
  | mapping :: rest =>
    buildMapLoop (fun k => if k = mapping.Path then some mapping.URL else pathsToUrls k) rest

/-- The function `buildMap(pathMappings)`: the loop started from the empty
map. -/
def buildMap (pathMappings : List pathMapping) : String → Option String :=
  buildMapLoop (fun _ => none) pathMappings

/-- The handler returned by `MapHandler(pathsToUrls, fallback)`.  A handler is a
function from the state `W` of the response writer and the request to the new
state of the response writer.  `requestPath` reads `request.URL.Path`;
`httpRedirect` is the library function `http.Redirect`; `fallback` is the method
`ServeHTTP` of the fallback handler. -/
def MapHandler {W R : Type} (requestPath : R → String)
    (httpRedirect : W → R → String → Nat → W)
    (pathsToUrls : String → Option String) (fallback : W → R → W) : W → R → W :=
  fun response request =>
    match pathsToUrls (requestPath request) with
    | some dest => httpRedirect response request dest StatusFound
    | none => fallback response request

/-- The mappings of the tests. -/
def testMappings : List pathMapping :=
  [⟨"/urlshort", "https://github.com/gophercises/urlshort"⟩,
   ⟨"/urlshort-final", "https://github.com/gophercises/urlshort/tree/solution"⟩]

/-- Mappings in which the path `/a` occurs twice. -/
def repeatedMappings : List pathMapping :=
  [⟨"/a", "http://one"⟩, ⟨"/b", "http://two"⟩, ⟨"/a", "http://three"⟩]

end Urlshort

/-! ## Package `main` of `sitemap`: the crawler (`sitemap/main.go`) -/

namespace Sitemap

/-- The type `url.Userinfo` (package `net/url`). -/
structure Userinfo where
  username : String
  password : String
  passwordSet : Bool
  deriving DecidableEq, Repr

/-- The type `url.URL` (package `net/url`).  `User` is a pointer in Go and an
optional value here; `filterLink` reads `Scheme` and `Host` only. -/
structure URL where
  Scheme : String
  Opaque : String
  User : Option Userinfo
  Host : String
  Path : String
  RawPath : String
  ForceQuery : Bool
  RawQuery : String
  Fragment : String
  deriving DecidableEq, Repr

/-- The function `strings.HasPrefix(s, p)`. -/
def hasPrefix (s p : String) : Bool :=
  p.data.isPrefixOf s.data

/-- The function `filterLink(lnk, domain)`.  The library functions it calls are
parameters: `urlParse` is `url.Parse` (`none` when it returns an error) and
`urlString` is the method `URL.String`.  The result is the pair of the Go
function, `none` being the `nil` pointer. -/
def filterLink (urlParse : String → Option URL) (urlString : URL → String)
    (lnk : Link.Link) (domain : URL) : Option URL × Bool :=
  let first := urlParse lnk.Href
  let second :=
    match first with
    | some parsedURL =>
      if parsedURL.Host = "" then urlParse (urlString domain ++ lnk.Href) else first
    | none => first
  match second with
  | some parsedURL =>
    if hasPrefix parsedURL.Scheme "http" && parsedURL.Host = domain.Host then
      (some parsedURL, true)
    else (none, false)
  | none => (none, false)

/-- Steps 1 and 2 of the resolver as the specification words them: parse the
href and reject it when unparsable; when the parsed URL has no host, the
resolved URL is the parse of the base domain's string form followed by the
href; otherwise it is the parsed href. -/
def resolve (urlParse : String → Option URL) (urlString : URL → String)
    (href : String) (domain : URL) : Option URL :=
  match urlParse href with
  | none => none
  | some u => if u.Host = "" then urlParse (urlString domain ++ href) else some u

/-- Step 3 of the resolver as the specification words it: a resolved URL is
accepted only if its scheme begins with `http` and its host equals the base
domain's host. -/
def acceptResolved (domain : URL) : Option URL → Option URL × Bool
  | some u =>
    if hasPrefix u.Scheme "http" = true ∧ u.Host = domain.Host then (some u, true)
    else (none, false)
  | none => (none, false)

/-- A URL with a scheme, a host and a path only. -/
def mkURL (scheme host path : String) : URL :=
  { Scheme := scheme, Opaque := "", User := none, Host := host, Path := path,
    RawPath := "", ForceQuery := false, RawQuery := "", Fragment := "" }

/-- A finite excerpt of `url.Parse`, for concrete inputs: the values the Go
parser returns on the listed strings.  `"http://x.comnot a url"` is an error in
Go (a space in the host); every string outside the excerpt is mapped to an
error as well. -/
def sampleParse (s : String) : Option URL :=
  if s = "/a" then some (mkURL "" "" "/a")
  else if s = "http://x.com/a" then some (mkURL "http" "x.com" "/a")
  else if s = "http://other.com/a" then some (mkURL "http" "other.com" "/a")
  else if s = "http://X.com/a" then some (mkURL "http" "X.com" "/a")
  else if s = "http://x.com:80/a" then some (mkURL "http" "x.com:80" "/a")
  else if s = "ftp://x.com/a" then some (mkURL "ftp" "x.com" "/a")
  else if s = "not a url" then some (mkURL "" "" "not a url")
  else none

/-- The method `URL.String` on URLs that have a scheme, a host and a path
only. -/
def sampleString (u : URL) : String :=
  u.Scheme ++ "://" ++ u.Host ++ u.Path

/-- A second rendering of URLs, which never yields a parsable prefix. -/
def otherString (_u : URL) : String :=
  "?"

/-- The base domain `http://x.com`. -/
def xcom : URL :=
  mkURL "http" "x.com" ""

end Sitemap

/-! ## The library function `http.Redirect` and the response writer

Embedded from the documented behaviour of `net/http`, `path` and
`net/http/httptest`. -/

namespace Urlshort

/-- The part of `http.Request` that the handler and `http.Redirect` read: the
method and `URL.Path`. -/
structure Request where
  Method : String
  Path : String
  deriving DecidableEq, Repr

/-- A response writer as `httptest.ResponseRecorder` keeps it: the header map,
the status code (200 until one is written), the body, and whether the header
has been written. -/
structure ResponseWriter where
  Header : String → Option String
  Code : Nat
  Body : String
  wroteHeader : Bool

/-- A fresh recorder, as `httptest.NewRecorder()` gives it: no header, status
200, empty body, header not written. -/
def newRecorder : ResponseWriter :=
  { Header := fun _ => none, Code := 200, Body := "", wroteHeader := false }

/-- The call `w.Header().Set(key, value)`. -/
def ResponseWriter.setHeader (w : ResponseWriter) (key value : String) : ResponseWriter :=
  { w with Header := fun k => if k = key then some value else w.Header k }

/-- The method `WriteHeader(code)`: the first status code written stays. -/
def ResponseWriter.WriteHeader (w : ResponseWriter) (code : Nat) : ResponseWriter :=
  if w.wroteHeader then w else { w with Code := code, wroteHeader := true }

/-- The method `Write(data)`: it writes the header with status 200 when none has
been written, then appends to the body. -/
def ResponseWriter.Write (w : ResponseWriter) (data : String) : ResponseWriter :=
  { w.WriteHeader 200 with Body := (w.WriteHeader 200).Body ++ data }

/-- The function `path.Split(p)`: the split right after the last slash. -/
def path_Split (p : String) : String × String :=
  (String.mk (p.data.reverse.dropWhile (fun c => c ≠ '/')).reverse,
   String.mk (p.data.reverse.takeWhile (fun c => c ≠ '/')).reverse)

/-- The elements of a path: the runs of characters between slashes, `cur` being
the element that is read. -/
def pathElements (cur : List Char) : List Char → List (List Char)
  | [] => [cur]
  | c :: cs => if c = '/' then cur :: pathElements [] cs else pathElements (cur ++ [c]) cs

/-- The rules of `path.Clean` on the elements of a path, `out` being the cleaned
elements so far, last first: an empty element and `.` are dropped; `..` takes
away the element before it, is dropped at the start of a rooted path, and is
kept at the start of a path that is not rooted. -/
def cleanElements (rooted : Bool) : List (List Char) → List (List Char) → List (List Char)
  | out, [] => out.reverse
  | out, e :: rest =>
    if e = [] ∨ e = ['.'] then cleanElements rooted out rest
    else if e = ['.', '.'] then
      match out with
      | [] => if rooted then cleanElements rooted [] rest else cleanElements rooted [e] rest
      | top :: below =>
        if top = ['.', '.'] then cleanElements rooted (e :: out) rest
        else cleanElements rooted below rest
    else cleanElements rooted (e :: out) rest

/-- The function `path.Clean(p)`: the shortest path equivalent to `p`; `.` for
an empty result. -/
def path_Clean (p : String) : String :=
  let rooted : Bool := p.data.head? = some '/'
  let joined := Link.strings_Join
    ((cleanElements rooted [] (pathElements [] p.data)).map String.mk) "/"
  if rooted then "/" ++ joined else if joined = "" then "." else joined

/-- The function `strings.HasSuffix(s, t)`. -/
def hasSuffix (s t : String) : Bool :=
  t.data.reverse.isPrefixOf s.data.reverse

/-- The split of a URL at its first `?`, as `http.Redirect` makes it with
`strings.Index`: the part before, and the query with its `?`. -/
def splitQuery (url : String) : String × String :=
  (String.mk (url.data.takeWhile (fun c => c ≠ '?')),
   String.mk (url.data.dropWhile (fun c => c ≠ '?')))

/-- The URL that `http.Redirect` redirects to.  A URL that parses without scheme
and without host is relative: when it does not begin with a slash it is put
after the directory of the request path; its part before the query is cleaned
with `path.Clean`, a trailing slash being kept.  Any other URL is left as it
is.  `urlParse` is `url.Parse`. -/
def redirectTarget (urlParse : String → Option Sitemap.URL) (requestPath url : String) : String :=
  match urlParse url with
  | some u =>
    if u.Scheme = "" ∧ u.Host = "" then
      let oldpath := if requestPath = "" then "/" else requestPath
      let absolute :=
        if url = "" ∨ url.data.head? ≠ some '/' then (path_Split oldpath).1 ++ url else url
      let before := (splitQuery absolute).1
      let query := (splitQuery absolute).2
      let cleaned := path_Clean before
      (if hasSuffix before "/" = true ∧ hasSuffix cleaned "/" = false then cleaned ++ "/"
        else cleaned) ++ query
    else url
  | none => url

/-- The digit of `n` in lower-case hexadecimal. -/
def hexDigit (n : Nat) : Char :=
  if n < 10 then Char.ofNat (48 + n) else Char.ofNat (87 + n)

/-- The bytes of the UTF-8 encoding of the character with code `c`. -/
def utf8Bytes (c : Nat) : List Nat :=
  if c < 0x80 then [c]
  else if c < 0x800 then [0xC0 + c / 64, 0x80 + c % 64]
  else if c < 0x10000 then [0xE0 + c / 4096, 0x80 + c / 64 % 64, 0x80 + c % 64]
  else [0xF0 + c / 262144, 0x80 + c / 4096 % 64, 0x80 + c / 64 % 64, 0x80 + c % 64]

/-- The characters of a string with every byte of a non-ASCII character
replaced by `%` and its two hexadecimal digits. -/
def escapeChars : List Char → List Char
  | [] => []
  | c :: cs =>
    if c.toNat < 128 then c :: escapeChars cs
    else ((utf8Bytes c.toNat).map (fun b => ['%', hexDigit (b / 16), hexDigit (b % 16)])).flatten
      ++ escapeChars cs

/-- The function `hexEscapeNonASCII(s)` of `net/http`: an ASCII string is
returned as it is. -/
def hexEscapeNonASCII (s : String) : String :=
  if s.data.all (fun c => decide (c.toNat < 128)) = true then s
  else String.mk (escapeChars s.data)

/-- The function `htmlEscape(s)` of `net/http`, character by character. -/
def htmlEscapeChars : List Char → List Char
  | [] => []
  | c :: cs =>
    (if c = '&' then "&amp;".data else if c = '<' then "&lt;".data
      else if c = '>' then "&gt;".data else if c.toNat = 34 then "&#34;".data
      else if c.toNat = 39 then "&#39;".data else [c]) ++ htmlEscapeChars cs

/-- The texts of `http.StatusText` for the redirect codes. -/
def StatusText (code : Nat) : String :=
  if code = 301 then "Moved Permanently" else if code = 302 then "Found"
  else if code = 303 then "See Other" else if code = 307 then "Temporary Redirect"
  else if code = 308 then "Permanent Redirect" else ""

/-- The function `http.Redirect(w, r, url, code)`: it sets the `Location` header
to the escaped target, sets a `Content-Type` for a `GET` or `HEAD` request when
none was set, writes the header with `code`, and for a `GET` request without
earlier `Content-Type` writes a short HTML note. -/
def Redirect (urlParse : String → Option Sitemap.URL) (w : ResponseWriter) (r : Request)
    (url : String) (code : Nat) : ResponseWriter :=
  let target := redirectTarget urlParse r.Path url
  let hadCT : Bool := (w.Header "Content-Type").isSome
  let w1 := w.setHeader "Location" (hexEscapeNonASCII target)
  let w2 :=
    if hadCT = false ∧ (r.Method = "GET" ∨ r.Method = "HEAD") then
      w1.setHeader "Content-Type" "text/html; charset=utf-8"
    else w1
  let w3 := w2.WriteHeader code
  if hadCT = false ∧ r.Method = "GET" then
    w3.Write ("<a href=" ++ String.mk [Char.ofNat 34] ++ String.mk (htmlEscapeChars target.data)
      ++ String.mk [Char.ofNat 34] ++ ">" ++ StatusText code ++ "</a>.\n\n")
  else w3

/-- A finite excerpt of `url.Parse` for the redirect targets used as concrete
inputs: the values the Go parser returns on the listed strings; every other
string is mapped to an error. -/
def redirectParse (s : String) : Option Sitemap.URL :=
  if s = "other" then some (Sitemap.mkURL "" "" "other")
  else if s = "../x/?q=1" then
    some { Sitemap.mkURL "" "" "../x/" with RawQuery := "q=1" }
  else if s = "https://github.com/gophercises/urlshort" then
    some (Sitemap.mkURL "https" "github.com" "/gophercises/urlshort")
  else if s = "https://github.com/gophercises/urlshort/tree/solution" then
    some (Sitemap.mkURL "https" "github.com" "/gophercises/urlshort/tree/solution")
  else none

/-- The fallback handler of the tests: it writes `Hello World`. -/
def helloFallback (w : ResponseWriter) (_request : Request) : ResponseWriter :=
  w.Write "Hello World"

end Urlshort

namespace Sitemap

/-- The loop `for _, lnk := range links` of `getAndFilter`, with the accumulator
`filteredLinks`: the URL of a link that `filterLink` accepts is appended. -/
def filterLinks (urlParse : String → Option URL) (urlString : URL → String) (domain : URL)
    (filteredLinks : List URL) : List Link.Link → List URL
  | [] => filteredLinks
  | lnk :: rest =>
    match filterLink urlParse urlString lnk domain with
    | (some parsedURL, true) =>
      filterLinks urlParse urlString domain (filteredLinks ++ [parsedURL]) rest
    | _ => filterLinks urlParse urlString domain filteredLinks rest

/-- The function returned by `getAndFilter(domain)`.  `httpGet` is `http.Get`
followed by the read of `response.Body`: the body of the page or the error of
the fetch; `htmlParse` and `errorsWrap` are the parameters of `link.Parse`. -/
def getAndFilter {ρ ε : Type} (httpGet : String → Except ε ρ)
    (htmlParse : ρ → Except ε Link.Node) (errorsWrap : ε → String → ε)
    (urlParse : String → Option URL) (urlString : URL → String) (domain : URL) :
    URL → List URL × Option ε :=
  fun node =>
    match httpGet (urlString node) with
    | .error err => ([], some err)
    | .ok body =>
      match Link.Parse htmlParse errorsWrap body with
      | (_, some err) => ([], some err)
      | (links, none) => (filterLinks urlParse urlString domain [] links, none)

/-- The URLs that `filterLink` accepts among the links, in the order of the
links, one for every accepted link. -/
def acceptedURLs (urlParse : String → Option URL) (urlString : URL → String) (domain : URL)
    (links : List Link.Link) : List URL :=
  links.filterMap (fun lnk =>
    match filterLink urlParse urlString lnk domain with
    | (some u, true) => some u
    | _ => none)

/-! ### The end-to-end scenario -/

/-- The root `http://ex.com` of the scenario. -/
def excom : URL :=
  mkURL "http" "ex.com" ""

/-- A finite excerpt of `url.Parse` for the scenario: the values the Go parser
returns on the listed strings; every other string is mapped to an error. -/
def scenarioParse (s : String) : Option URL :=
  if s = "/b" then some (mkURL "" "" "/b")
  else if s = "/a" then some (mkURL "" "" "/a")
  else if s = "http://ex.com" then some (mkURL "http" "ex.com" "")
  else if s = "http://ex.com/b" then some (mkURL "http" "ex.com" "/b")
  else if s = "http://ex.com/a" then some (mkURL "http" "ex.com" "/a")
  else if s = "http://other.com/x" then some (mkURL "http" "other.com" "/x")
  else none

/-- A page whose body holds one anchor for each of the given hrefs, as the
document tree that `html.Parse` builds: document, `html`, `head`, `body`. -/
def pageWith (hrefs : List String) : Link.Node :=
  .mk Link.NodeType.DocumentNode 0 "" []
    [.mk Link.NodeType.ElementNode 0 "html" []
      [.mk Link.NodeType.ElementNode 0 "head" [] [],
       .mk Link.NodeType.ElementNode 0 "body" []
        (hrefs.map (fun h => Link.anchorNode [⟨"", "href", h⟩]))]]

/-- The site of the scenario as the claim words it: the root page holds the
anchors `/b` and `http://other.com/x`, the page `/b` holds the anchor `/a`.
The scenario does not say what `http://ex.com/a` serves; that is the
parameter `pageA`.  Bodies are given as document trees; every other URL fails
to be fetched with error `404`. -/
def scenarioGet (pageA : Except Nat Link.Node) (url : String) : Except Nat Link.Node :=
  if url = "http://ex.com" then .ok (pageWith ["/b", "http://other.com/x"])
  else if url = "http://ex.com/b" then .ok (pageWith ["/a"])
  else if url = "http://ex.com/a" then pageA
  else .error 404

/-- The site of the scenario with a page `/b` whose anchor does lead back to
the root: its href is `http://ex.com`. -/
def cyclicGet (url : String) : Except Nat Link.Node :=
  if url = "http://ex.com" then .ok (pageWith ["/b", "http://other.com/x"])
  else if url = "http://ex.com/b" then .ok (pageWith ["http://ex.com"])
  else .error 404

/-- Bodies that are document trees already parse to themselves. -/
def treeParse (doc : Link.Node) : Except Nat Link.Node :=
  .ok doc

/-- A parser of bodies that always fails, with error `5`. -/
def failingParse (_doc : Link.Node) : Except Nat Link.Node :=
  .error 5

/-- A site whose root page holds the anchor `/b` twice, with an anchor between
them whose href does not parse. -/
def repeatedGet (url : String) : Except Nat Link.Node :=
  if url = "http://ex.com" then .ok (pageWith ["/b", "%zz", "/b"])
  else .error 404

/-- A stand-in for `errors.Wrap` on numeric errors. -/
def wrapCode (err : Nat) (_msg : String) : Nat :=
  err + 1000

section Bfs

variable {α : Type} {ε : Type} [DecidableEq α]

/-- Membership test `contains(slice, node)` of `sitemap/main.go`: a linear scan
comparing with `==`. -/
def contains : List α → α → Bool
  | [], _ => false
  | elem :: rest, node => if elem = node then true else contains rest node

/-- The loop `for _, child := range children` inside `bfs`: a child that is in
neither `visited` nor the current `queue` is appended to the back of the queue;
`visited` is not changed by the loop. -/
def enqueueChildren (visited : List α) : List α → List α → List α
  | queue, [] => queue
  | queue, child :: rest =>
    if !contains visited child && !contains queue child then
      enqueueChildren visited (queue ++ [child]) rest
    else
      enqueueChildren visited queue rest

/-- The loop `for len(queue) > 0` of `bfs`, from the state `(queue, visited)`.
An iteration takes the first `node` off the queue, expands it, returns
`(nil, err)` when the expansion fails, and otherwise enqueues the new children
and appends `node` to `visited`.  With an empty queue `(visited, nil)` is
returned. -/
def bfsLoop (expandFn : α → List α × Option ε) :
    Nat → List α → List α → Option (Option (List α) × Option ε)
  | _, [], visited => some (some visited, none)
  | 0, _ :: _, _ => none
  | fuel + 1, node :: queue, visited =>
    match expandFn node with
    | (_, some err) => some (none, some err)
    | (children, none) =>
      bfsLoop expandFn fuel (enqueueChildren visited queue children) (visited ++ [node])

/-- The function `bfs(start, expandFn)`: the loop started from
`queue = [start]`, `visited = []`. -/
def bfs (fuel : Nat) (start : α) (expandFn : α → List α × Option ε) :
    Option (Option (List α) × Option ε) :=
  bfsLoop expandFn fuel [start] []

/-- Ghost-instrumented copy of `bfsLoop`: the same loop, which also records in
`calls` every URL handed to `expandFn`, in call order.  The log is returned
also when the fuel runs out. -/
def bfsLoopLog (expandFn : α → List α × Option ε) :
    Nat → List α → List α → List α → Option (Option (List α) × Option ε) × List α
  | _, [], visited, calls => (some (some visited, none), calls)
  | 0, _ :: _, _, calls => (none, calls)
  | fuel + 1, node :: queue, visited, calls =>
    match expandFn node with
    | (_, some err) => (some (none, some err), calls ++ [node])
    | (children, none) =>
      bfsLoopLog expandFn fuel (enqueueChildren visited queue children) (visited ++ [node])
        (calls ++ [node])

/-- Ghost-instrumented `bfs`: the result of `bfs` paired with the log of the
URLs that were expanded. -/
def bfsLog (fuel : Nat) (start : α) (expandFn : α → List α × Option ε) :
    Option (Option (List α) × Option ε) × List α :=
  bfsLoopLog expandFn fuel [start] [] []

/-- One expansion edge: `c` is among the children returned for `u`. -/
def Expands (expandFn : α → List α × Option ε) (u c : α) : Prop :=
  c ∈ (expandFn u).1

/-- Reachability from `root` by repeatedly applying the expansion function,
the root included. -/
def Reachable (expandFn : α → List α × Option ε) (root u : α) : Prop :=
  Relation.ReflTransGen (Expands expandFn) root u

/-- There is an expansion path of exactly `n` edges from `root` to the URL. -/
inductive PathLen (expandFn : α → List α × Option ε) (root : α) : Nat → α → Prop
  | zero : PathLen expandFn root 0 root
  | succ {n : Nat} {u c : α} :
      PathLen expandFn root n u → Expands expandFn u c → PathLen expandFn root (n + 1) c

/-- The number `d` is the length of the shortest expansion path from `root`
to `u`. -/
def ShortestLen (expandFn : α → List α × Option ε) (root u : α) (d : Nat) : Prop :=
  PathLen expandFn root d u ∧ ∀ n, PathLen expandFn root n u → d ≤ n

/-- Invariant of the search on `(visited, pending)`, where `pending` is the
queue together with the URL being expanded: the root has been seen, every seen
URL is reachable, and every child of a URL of `visited` has been seen. -/
def SearchInv (expandFn : α → List α × Option ε) (root : α)
    (visited pending : List α) : Prop :=
  root ∈ visited ++ pending ∧
  (∀ u ∈ visited ++ pending, Reachable expandFn root u) ∧
  (∀ p ∈ visited, ∀ c, Expands expandFn p c → c ∈ visited ++ pending)

/-- Order invariant of the search for a distance function `d`: in
`visited ++ pending` a first occurrence is never nearer to the root than what
precedes it, and no seen URL is more than one edge farther from the root than
a pending URL that is not yet in `visited`. -/
def OrderInv (d : α → Nat) (visited pending : List α) : Prop :=
  (∀ l1 v l2, visited ++ pending = l1 ++ v :: l2 → v ∉ l1 → ∀ u ∈ l1, d u ≤ d v) ∧
  (∀ u ∈ visited ++ pending, ∀ w ∈ pending, w ∉ visited → d u ≤ d w + 1)

/-- Counting invariant of the search: every seen URL is reachable and no URL
occurs more than twice in `visited ++ pending`. -/
def CountInv (expandFn : α → List α × Option ε) (root : α)
    (visited pending : List α) : Prop :=
  (∀ u ∈ visited ++ pending, Reachable expandFn root u) ∧
  (∀ x, (visited ++ pending).count x ≤ 2)

/-- A list with every element kept at its first occurrence only. -/
def keepFirst : List α → List α
  | [] => []
  | c :: rest => c :: (keepFirst rest).filter (fun x => x ≠ c)

/-- The states `(queue, visited)` that the loop of `bfs` passes through at the
loop head when started from `root`: the initial state, and the state after a
successful iteration from such a state. -/
inductive LoopState (expandFn : α → List α × Option ε) (root : α) :
    List α → List α → Prop
  | init : LoopState expandFn root [root] []
  | step {node : α} {queue visited children : List α} :
      LoopState expandFn root (node :: queue) visited →
      expandFn node = (children, none) →
      LoopState expandFn root (enqueueChildren visited queue children) (visited ++ [node])

/-- Invariant of the search on `(visited, queue)` at the loop head: a URL of
`visited` occurs twice in `visited ++ queue` when it links to itself and once
otherwise, and a URL not in `visited` occurs at most once in the queue. -/
def TwiceInv (expandFn : α → List α × Option ε) (visited queue : List α) : Prop :=
  (∀ x ∈ visited, (visited ++ queue).count x = if x ∈ (expandFn x).1 then 2 else 1) ∧
  (∀ x, x ∉ visited → queue.count x ≤ 1)

/-! ## Small link graphs used as concrete inputs -/

/-- The root `0` links to `1`, to itself, to `1` again and to `2`; `1` links to
`3` and `2`. -/
def repeatExpand : Nat → List Nat × Option Nat :=
  fun u => if u = 0 then ([1, 0, 1, 2], none) else if u = 1 then ([3, 2], none)
    else ([], none)


/-- A one-page site whose page links to itself: `expand(0) = [0]`. -/
def selfLinkExpand : Nat → List Nat × Option Nat :=
  fun _ => ([0], none)

/-- The cyclic graph `0 → 1 → 0`. -/
def cycleExpand : Nat → List Nat × Option Nat :=
  fun u => if u = 0 then ([1], none) else ([0], none)

/-- The root `0` links to `1` and `2`; expanding `1` fails with error `7`
(and hands back a non-empty list next to the error); `2` links to `3`. -/
def failingExpand : Nat → List Nat × Option Nat :=
  fun u => if u = 0 then ([1, 2], none) else if u = 1 then ([3], some 7)
    else if u = 2 then ([3], none) else ([], none)

/-- A diamond with a back edge: `0 → 1, 2`, `1 → 3`, `2 → 3`, `3 → 0`. -/
def diamondExpand : Nat → List Nat × Option Nat :=
  fun u => if u = 0 then ([1, 2], none) else if u = 1 then ([3], none)
    else if u = 2 then ([3], none) else ([0], none)

/-! ## Basic facts about the loop -/

theorem contains_iff (l : List α) (x : α) : contains l x = true ↔ x ∈ l := by
  induction l with
  | nil => simp [contains]
  | cons a l ih =>
    by_cases h : a = x
    · simp [contains, h]
    · have h2 : ¬ x = a := fun e => h e.symm
      simp [contains, h, h2, ih]

/-- Induction principle for the child loop: a property of the queue that holds
at the start and is kept by every push of a child that is in neither list
holds at the end. -/
theorem enqueueChildren_induct (P : List α → Prop) (visited : List α) :
    ∀ (children queue : List α), P queue →
      (∀ q c, P q → c ∈ children → c ∉ visited → c ∉ q → P (q ++ [c])) →
      P (enqueueChildren visited queue children) := by
  intro children
  induction children with
  | nil => intro queue h _; simpa [enqueueChildren] using h
  | cons c cs ih =>
    intro queue h hpush
    unfold enqueueChildren
    split
    · rename_i hc
      simp only [Bool.and_eq_true, Bool.not_eq_true_eq_eq_false, Bool.not_eq_eq_eq_not,
        Bool.not_true] at hc
      have h1 : c ∉ visited := by
        intro hm; have := (contains_iff visited c).2 hm; simp [this] at hc
      have h2 : c ∉ queue := by
        intro hm; have := (contains_iff queue c).2 hm; simp [this] at hc
      apply ih
      · exact hpush queue c h (by simp) h1 h2
      · intro q c2 hq hc2 hv hq2
        exact hpush q c2 hq (by simp [hc2]) hv hq2
    · apply ih _ h
      intro q c2 hq hc2 hv hq2
      exact hpush q c2 hq (by simp [hc2]) hv hq2

/-- The child loop only appends to the queue. -/
theorem enqueueChildren_extends (visited children queue : List α) :
    queue <+: enqueueChildren visited queue children := by
  apply enqueueChildren_induct (fun q => queue <+: q)
  · exact List.prefix_refl _
  · intro q c hq _ _ _
    exact hq.trans (List.prefix_append q [c])

/-- After the child loop every child is in `visited` or in the queue. -/
theorem enqueueChildren_covers (visited : List α) :
    ∀ (children queue : List α), ∀ c ∈ children,
      c ∈ visited ∨ c ∈ enqueueChildren visited queue children := by
  intro children
  induction children with
  | nil => intro _ c hc; simp at hc
  | cons a cs ih =>
    intro queue c hc
    unfold enqueueChildren
    rcases List.mem_cons.1 hc with rfl | hc
    · split
      · right
        exact (enqueueChildren_extends visited cs (queue ++ [c])).subset (by simp)
      · rename_i hn
        by_cases hv : c ∈ visited
        · exact Or.inl hv
        · right
          have hq : c ∈ queue := by
            by_contra hq
            apply hn
            have e1 : contains visited c = false := by
              rw [← Bool.not_eq_true, contains_iff]; exact hv
            have e2 : contains queue c = false := by
              rw [← Bool.not_eq_true, contains_iff]; exact hq
            simp [e1, e2]
          exact (enqueueChildren_extends visited cs queue).subset hq
    · split
      · exact ih _ c hc
      · exact ih _ c hc

/-- Invariant rule for the search loop: a property of `(visited, queue)` kept by
every successful iteration holds of `(result, [])` when a list is returned. -/
theorem bfsLoop_invariant (expandFn : α → List α × Option ε)
    (Inv : List α → List α → Prop)
    (hstep : ∀ visited node queue children, Inv visited (node :: queue) →
      expandFn node = (children, none) →
      Inv (visited ++ [node]) (enqueueChildren visited queue children)) :
    ∀ (fuel : Nat) (queue visited l : List α) (e : Option ε), Inv visited queue →
      bfsLoop expandFn fuel queue visited = some (some l, e) → Inv l [] := by
  intro fuel
  induction fuel with
  | zero =>
    intro queue visited l e hinv h
    cases queue with
    | nil => simp [bfsLoop] at h; rw [← h.1]; exact hinv
    | cons a q => simp [bfsLoop] at h
  | succ n ih =>
    intro queue visited l e hinv h
    cases queue with
    | nil => simp [bfsLoop] at h; rw [← h.1]; exact hinv
    | cons node q =>
      rw [bfsLoop] at h
      split at h
      · simp at h
      · rename_i children hexp
        exact ih _ _ l e (hstep visited node q children hinv hexp) h

/-- A returned list comes without an error. -/
theorem bfsLoop_list_no_error (expandFn : α → List α × Option ε) :
    ∀ (fuel : Nat) (queue visited l : List α) (e : Option ε),
      bfsLoop expandFn fuel queue visited = some (some l, e) → e = none := by
  intro fuel
  induction fuel with
  | zero =>
    intro queue visited l e h
    cases queue with
    | nil => simp [bfsLoop] at h; exact h.2.symm
    | cons a q => simp [bfsLoop] at h
  | succ n ih =>
    intro queue visited l e h
    cases queue with
    | nil => simp [bfsLoop] at h; exact h.2.symm
    | cons node q =>
      rw [bfsLoop] at h
      split at h
      · simp at h
      · exact ih _ _ l e h

/-- More fuel does not change a result. -/
theorem bfsLoop_fuel_mono (expandFn : α → List α × Option ε) :
    ∀ (fuel k : Nat) (queue visited : List α) (r : Option (List α) × Option ε),
      bfsLoop expandFn fuel queue visited = some r →
      bfsLoop expandFn (fuel + k) queue visited = some r := by
  intro fuel
  induction fuel with
  | zero =>
    intro k queue visited r h
    cases queue with
    | nil =>
      cases k with
      | zero => simpa using h
      | succ k => simpa [bfsLoop] using h
    | cons a q => simp [bfsLoop] at h
  | succ n ih =>
    intro k queue visited r h
    cases queue with
    | nil => simpa [bfsLoop] using h
    | cons node q =>
      have e : n + 1 + k = (n + k) + 1 := by omega
      rw [e, bfsLoop]
      rw [bfsLoop] at h
      split
      · rename_i x c err hexp
        rw [hexp] at h
        simpa using h
      · rename_i x children hexp
        rw [hexp] at h
        exact ih k _ _ r h

/-- The ghost log extends the calls made so far; the logged run is the run of
`bfsLoop`; and either every newly logged URL expanded without error (and a
returned list is `visited` followed by the new calls), or the last logged URL
is the first one whose expansion failed and its error is what is returned. -/
theorem bfsLoopLog_spec (expandFn : α → List α × Option ε) :
    ∀ (fuel : Nat) (queue visited calls : List α),
      ∃ new : List α,
        (bfsLoopLog expandFn fuel queue visited calls).2 = calls ++ new ∧
        (bfsLoopLog expandFn fuel queue visited calls).1 = bfsLoop expandFn fuel queue visited ∧
        (((∀ w ∈ new, (expandFn w).2 = none) ∧
            (bfsLoop expandFn fuel queue visited = none ∨
             bfsLoop expandFn fuel queue visited = some (some (visited ++ new), none))) ∨
         (∃ pre u e, new = pre ++ [u] ∧ (∀ w ∈ pre, (expandFn w).2 = none) ∧
            (expandFn u).2 = some e ∧
            bfsLoop expandFn fuel queue visited = some (none, some e))) := by
  intro fuel
  induction fuel with
  | zero =>
    intro queue visited calls
    cases queue with
    | nil => exact ⟨[], by simp [bfsLoopLog, bfsLoop]⟩
    | cons a q => exact ⟨[], by simp [bfsLoopLog, bfsLoop]⟩
  | succ n ih =>
    intro queue visited calls
    cases queue with
    | nil => exact ⟨[], by simp [bfsLoopLog, bfsLoop]⟩
    | cons node q =>
      rcases hexp : expandFn node with ⟨children, _ | err⟩
      · obtain ⟨new, h1, h2, h3⟩ :=
          ih (enqueueChildren visited q children) (visited ++ [node]) (calls ++ [node])
        refine ⟨node :: new, ?_, ?_, ?_⟩
        · simp [bfsLoopLog, hexp, h1]
        · simp [bfsLoopLog, bfsLoop, hexp, h2]
        · rcases h3 with ⟨ha, hb⟩ | ⟨pre, u, e, hn, hp, hu, hr⟩
          · left
            refine ⟨?_, ?_⟩
            · intro w hw
              rcases List.mem_cons.1 hw with rfl | hw
              · simp [hexp]
              · exact ha w hw
            · simpa [bfsLoop, hexp] using hb
          · right
            refine ⟨node :: pre, u, e, by simp [hn], ?_, hu, by simpa [bfsLoop, hexp] using hr⟩
            intro w hw
            rcases List.mem_cons.1 hw with rfl | hw
            · simp [hexp]
            · exact hp w hw
      · refine ⟨[node], by simp [bfsLoopLog, hexp], by simp [bfsLoopLog, bfsLoop, hexp], ?_⟩
        right
        exact ⟨[], node, err, by simp, by simp, by simp [hexp], by simp [bfsLoop, hexp]⟩

/-- The list `visited ++ queue` only grows at its end: it is a prefix of the
returned list. -/
theorem bfsLoop_extends (expandFn : α → List α × Option ε) (fuel : Nat)
    (queue visited l : List α) (e : Option ε)
    (h : bfsLoop expandFn fuel queue visited = some (some l, e)) :
    visited ++ queue <+: l := by
  have key := bfsLoop_invariant expandFn (fun v q => visited ++ queue <+: v ++ q)
    (by
      intro v node q children hinv _
      refine hinv.trans ?_
      have hp := enqueueChildren_extends v children q
      obtain ⟨t, ht⟩ := hp
      exact ⟨t, by rw [← ht]; simp⟩)
    fuel queue visited l e (List.prefix_refl _) h
  simpa using key

/-- Invariant rule split at the two places where the state changes: a push of
one child during the child loop, and the move of the expanded URL from the
front of the pending list to the end of `visited`. -/
theorem bfsLoop_invariant_push (expandFn : α → List α × Option ε)
    (Inv : List α → List α → Prop)
    (hpush : ∀ visited node q c, Inv visited (node :: q) → Expands expandFn node c →
      c ∉ visited → c ∉ q → Inv visited (node :: (q ++ [c])))
    (hdeq : ∀ visited node q, Inv visited (node :: q) →
      (∀ c, Expands expandFn node c → c ∈ visited ++ node :: q) →
      Inv (visited ++ [node]) q)
    (fuel : Nat) (queue visited l : List α) (e : Option ε) (hinv : Inv visited queue)
    (h : bfsLoop expandFn fuel queue visited = some (some l, e)) : Inv l [] := by
  refine bfsLoop_invariant expandFn Inv ?_ fuel queue visited l e hinv h
  intro vis node q children hi hexp
  have hP : Inv vis (node :: enqueueChildren vis q children) := by
    apply enqueueChildren_induct (fun q2 => Inv vis (node :: q2)) vis children q hi
    intro q2 c hq2 hc hv hcq
    exact hpush vis node q2 c hq2 (by simp [Expands, hexp, hc]) hv hcq
  apply hdeq vis node _ hP
  intro c hc
  have hc2 : c ∈ children := by simpa [Expands, hexp] using hc
  rcases enqueueChildren_covers vis children q c hc2 with h1 | h1
  · simp [h1]
  · simp [h1]

/-- The search invariant holds of the returned list. -/
theorem bfs_searchInv (root : α) (expandFn : α → List α × Option ε) (fuel : Nat)
    (l : List α) (e : Option ε) (h : bfs fuel root expandFn = some (some l, e)) :
    SearchInv expandFn root l [] := by
  refine bfsLoop_invariant_push expandFn (SearchInv expandFn root) ?_ ?_ fuel [root] [] l e ?_ h
  · rintro vis node q c ⟨h1, h2, h3⟩ hc _ _
    refine ⟨?_, ?_, ?_⟩
    · simp only [List.mem_append, List.mem_cons] at h1 ⊢
      tauto
    · intro u hu
      have hnode : Reachable expandFn root node := h2 node (by simp)
      simp only [List.mem_append, List.mem_cons, List.mem_singleton, List.not_mem_nil,
        or_false] at hu
      rcases hu with hu | hu | hu | hu
      · exact h2 u (by simp [hu])
      · exact h2 u (by simp [hu])
      · exact h2 u (by simp [hu])
      · subst hu
        exact Relation.ReflTransGen.tail hnode hc
    · intro p hp c2 hc2
      have := h3 p hp c2 hc2
      simp only [List.mem_append, List.mem_cons] at this ⊢
      tauto
  · rintro vis node q ⟨h1, h2, h3⟩ hcov
    refine ⟨by simpa using h1, ?_, ?_⟩
    · intro u hu
      exact h2 u (by simpa using hu)
    · intro p hp c hc
      simp only [List.mem_append, List.mem_singleton] at hp
      rcases hp with hp | rfl
      · simpa using h3 p hp c hc
      · simpa using hcov c hc
  · refine ⟨by simp, ?_, ?_⟩
    · intro u hu
      simp only [List.nil_append, List.mem_singleton] at hu
      subst hu
      exact Relation.ReflTransGen.refl
    · intro p hp
      simp at hp

/-- A list in which nothing occurs more than twice and whose elements lie in a
finite set is at most twice as long as the set is large. -/
theorem length_le_two_mul_card (L : List α) (S : Finset α)
    (hc : ∀ x, L.count x ≤ 2) (hs : ∀ x ∈ L, x ∈ S) : L.length ≤ 2 * S.card := by
  have h1 : L.length = ∑ x in L.toFinset, L.count x :=
    (List.sum_toFinset_count_eq_length L).symm
  have h2 : ∑ x in L.toFinset, L.count x ≤ ∑ _x in L.toFinset, 2 :=
    Finset.sum_le_sum (fun x _ => hc x)
  have h3 : L.toFinset.card ≤ S.card := by
    apply Finset.card_le_card
    intro x hx
    exact hs x (List.mem_toFinset.1 hx)
  rw [h1]
  refine h2.trans ?_
  simp only [Finset.sum_const, smul_eq_mul]
  omega

/-- The counting invariant is kept by an iteration of the loop. -/
theorem countInv_step (root : α) (expandFn : α → List α × Option ε)
    (visited : List α) (node : α) (queue children : List α)
    (hinv : CountInv expandFn root visited (node :: queue))
    (hexp : expandFn node = (children, none)) :
    CountInv expandFn root (visited ++ [node]) (enqueueChildren visited queue children) := by
  have hP : CountInv expandFn root visited (node :: enqueueChildren visited queue children) := by
    apply enqueueChildren_induct (fun q2 => CountInv expandFn root visited (node :: q2))
      visited children queue hinv
    rintro q2 c ⟨h2, h4⟩ hc hv hcq
    refine ⟨?_, ?_⟩
    · intro u hu
      have hnode : Reachable expandFn root node := h2 node (by simp)
      simp only [List.mem_append, List.mem_cons, List.mem_singleton, List.not_mem_nil,
        or_false] at hu
      rcases hu with hu | hu | hu | hu
      · exact h2 u (by simp [hu])
      · exact h2 u (by simp [hu])
      · exact h2 u (by simp [hu])
      · subst hu
        exact Relation.ReflTransGen.tail hnode (by simp [Expands, hexp, hc])
    · intro x
      have e : visited ++ node :: (q2 ++ [c]) = (visited ++ node :: q2) ++ [c] := by simp
      rw [e, List.count_append]
      by_cases hx : c = x
      · subst hx
        have e0 : (visited ++ node :: q2).count c ≤ 1 := by
          rw [List.count_append, List.count_cons, List.count_eq_zero_of_not_mem hv,
            List.count_eq_zero_of_not_mem hcq]
          split <;> omega
        have e1 : ([c] : List α).count c = 1 := by simp
        omega
      · have e1 : ([c] : List α).count x = 0 := by
          apply List.count_eq_zero_of_not_mem
          simpa using fun h => hx h.symm
        have := h4 x
        omega
  obtain ⟨h2, h4⟩ := hP
  refine ⟨?_, ?_⟩
  · intro u hu
    exact h2 u (by simpa using hu)
  · intro x
    simpa using h4 x

/-- Termination of the loop for a never-failing expansion function, from a
bound on the length of `visited ++ queue` that an invariant grants: with more
fuel than the bound leaves iterations, a list is returned. -/
theorem bfsLoop_terminates (expandFn : α → List α × Option ε)
    (hnf : ∀ u, (expandFn u).2 = none) (Inv : List α → List α → Prop)
    (hstep : ∀ visited node queue children, Inv visited (node :: queue) →
      expandFn node = (children, none) →
      Inv (visited ++ [node]) (enqueueChildren visited queue children))
    (B : Nat) (hB : ∀ visited queue, Inv visited queue → visited.length + queue.length ≤ B) :
    ∀ (fuel : Nat) (queue visited : List α), Inv visited queue →
      B ≤ fuel + visited.length →
      ∃ l, bfsLoop expandFn fuel queue visited = some (some l, none) := by
  intro fuel
  induction fuel with
  | zero =>
    intro queue visited hinv hfuel
    cases queue with
    | nil => exact ⟨visited, by simp [bfsLoop]⟩
    | cons node q =>
      have := hB _ _ hinv
      simp at this
      omega
  | succ n ih =>
    intro queue visited hinv hfuel
    cases queue with
    | nil => exact ⟨visited, by simp [bfsLoop]⟩
    | cons node q =>
      rcases hexp : expandFn node with ⟨children, err⟩
      have herr : err = none := by
        have := hnf node
        rw [hexp] at this
        exact this
      subst herr
      obtain ⟨l, hl⟩ := ih (enqueueChildren visited q children) (visited ++ [node])
        (hstep visited node q children hinv hexp) (by simp; omega)
      exact ⟨l, by simp [bfsLoop, hexp, hl]⟩

/-! ## Shortest expansion paths -/

theorem reachable_of_pathLen (root : α) (expandFn : α → List α × Option ε) (n : Nat) (u : α)
    (h : PathLen expandFn root n u) : Reachable expandFn root u := by
  induction h with
  | zero => exact Relation.ReflTransGen.refl
  | succ _ hstep ih => exact Relation.ReflTransGen.tail ih hstep

theorem pathLen_of_reachable (root : α) (expandFn : α → List α × Option ε) (u : α)
    (h : Reachable expandFn root u) : ∃ n, PathLen expandFn root n u := by
  induction h with
  | refl => exact ⟨0, PathLen.zero⟩
  | tail _ hstep ih =>
    obtain ⟨n, hn⟩ := ih
    exact ⟨n + 1, PathLen.succ hn hstep⟩

/-- Every reachable URL has a shortest expansion path. -/
theorem exists_shortestLen (root : α) (expandFn : α → List α × Option ε) (u : α)
    (h : Reachable expandFn root u) : ∃ d, ShortestLen expandFn root u d := by
  classical
  have hex := pathLen_of_reachable root expandFn u h
  exact ⟨Nat.find hex, Nat.find_spec hex, fun n hn => Nat.find_min' hex hn⟩

theorem shortestLen_unique (root : α) (expandFn : α → List α × Option ε) (u : α)
    (d1 d2 : Nat) (h1 : ShortestLen expandFn root u d1) (h2 : ShortestLen expandFn root u d2) :
    d1 = d2 :=
  Nat.le_antisymm (h1.2 d2 h2.1) (h2.2 d1 h1.1)

/-- A child is at most one edge farther from the root than its parent. -/
theorem shortestLen_child_le (root : α) (expandFn : α → List α × Option ε) (d : α → Nat)
    (hd : ∀ u, Reachable expandFn root u → ShortestLen expandFn root u (d u))
    (u c : α) (hu : Reachable expandFn root u) (hc : Expands expandFn u c) :
    d c ≤ d u + 1 :=
  (hd c (Relation.ReflTransGen.tail hu hc)).2 (d u + 1) (PathLen.succ (hd u hu).1 hc)

/-- A reachable URL other than the root has a parent exactly one edge nearer
to the root. -/
theorem shortestLen_parent (root : α) (expandFn : α → List α × Option ε) (d : α → Nat)
    (hd : ∀ u, Reachable expandFn root u → ShortestLen expandFn root u (d u))
    (v : α) (hv : Reachable expandFn root v) (hne : v ≠ root) :
    ∃ p, Reachable expandFn root p ∧ Expands expandFn p v ∧ d v = d p + 1 := by
  have hpath := (hd v hv).1
  generalize hk : d v = k at hpath
  cases hpath with
  | zero => exact absurd rfl hne
  | succ hp hstep =>
    rename_i n p
    have hpr := reachable_of_pathLen root expandFn n p hp
    refine ⟨p, hpr, hstep, ?_⟩
    have h1 : d p ≤ n := (hd p hpr).2 n hp
    have h2 := shortestLen_child_le root expandFn d hd p v hpr hstep
    omega

/-- A reachable URL that has not been seen lies strictly farther from the root
than some pending URL that is not in `visited`. -/
theorem unseen_beyond_frontier (root : α) (expandFn : α → List α × Option ε) (d : α → Nat)
    (hd : ∀ u, Reachable expandFn root u → ShortestLen expandFn root u (d u))
    (visited pending : List α) (hs : SearchInv expandFn root visited pending) :
    ∀ (k : Nat) (x : α), d x = k → Reachable expandFn root x → x ∉ visited ++ pending →
      ∃ w ∈ pending, w ∉ visited ∧ d w < d x := by
  obtain ⟨h1, _, h3⟩ := hs
  intro k
  induction k using Nat.strong_induction_on with
  | _ k ih =>
    intro x hk hx hnot
    have hne : x ≠ root := fun e => hnot (e ▸ h1)
    obtain ⟨p, hpr, hpx, hdp⟩ := shortestLen_parent root expandFn d hd x hx hne
    by_cases hp : p ∈ visited ++ pending
    · by_cases hpv : p ∈ visited
      · exact absurd (h3 p hpv x hpx) hnot
      · have hpp : p ∈ pending := by
          rcases List.mem_append.1 hp with h | h
          · exact absurd h hpv
          · exact h
        exact ⟨p, hpp, hpv, by omega⟩
    · obtain ⟨w, hw, hwv, hlt⟩ := ih (d p) (by omega) p rfl hpr hp
      exact ⟨w, hw, hwv, by omega⟩

/-- Splitting `L ++ [x]` at an element: either the element is the appended
one, or the split is a split of `L`. -/
theorem split_concat (L l1 l2 : List α) (x v : α) (h : L ++ [x] = l1 ++ v :: l2) :
    (l2 = [] ∧ l1 = L ∧ v = x) ∨ ∃ l2b, l2 = l2b ++ [x] ∧ L = l1 ++ v :: l2b := by
  rcases List.eq_nil_or_concat l2 with rfl | ⟨l2b, b, rfl⟩
  · left
    have e : l1 ++ [v] = L ++ [x] := h.symm
    have := List.append_inj_left' e (by simp)
    have h2 := List.append_inj_right' e (by simp)
    simp only [List.cons.injEq, and_true] at h2
    exact ⟨rfl, this, h2⟩
  · right
    rw [List.concat_eq_append] at h ⊢
    have e : (l1 ++ v :: l2b) ++ [b] = L ++ [x] := by simpa using h.symm
    have h1 := List.append_inj_left' e (by simp)
    have h2 := List.append_inj_right' e (by simp)
    simp only [List.cons.injEq, and_true] at h2
    subst h2
    exact ⟨l2b, rfl, h1.symm⟩

/-- The search invariant and the order invariant are kept by a push. -/
theorem orderInv_push (root : α) (expandFn : α → List α × Option ε) (d : α → Nat)
    (hd : ∀ u, Reachable expandFn root u → ShortestLen expandFn root u (d u))
    (visited : List α) (node : α) (q : List α) (c : α)
    (hinv : SearchInv expandFn root visited (node :: q) ∧ OrderInv d visited (node :: q))
    (hc : Expands expandFn node c) (hv : c ∉ visited) (hq : c ∉ q) :
    SearchInv expandFn root visited (node :: (q ++ [c])) ∧
      OrderInv d visited (node :: (q ++ [c])) := by
  obtain ⟨hs, hM, hB⟩ := hinv
  have hs0 := hs
  obtain ⟨h1, h2, h3⟩ := hs
  have hnode : Reachable expandFn root node := h2 node (by simp)
  have hcr : Reachable expandFn root c := Relation.ReflTransGen.tail hnode hc
  have eL : visited ++ node :: (q ++ [c]) = (visited ++ node :: q) ++ [c] := by simp
  have hS : SearchInv expandFn root visited (node :: (q ++ [c])) := by
    refine ⟨?_, ?_, ?_⟩
    · rw [eL]; exact List.mem_append_left _ h1
    · intro u hu
      rw [eL] at hu
      rcases List.mem_append.1 hu with hu | hu
      · exact h2 u hu
      · simp only [List.mem_singleton] at hu
        subst hu
        exact hcr
    · intro p hp c2 hc2
      rw [eL]
      exact List.mem_append_left _ (h3 p hp c2 hc2)
  refine ⟨hS, ?_⟩
  by_cases hcn : c = node
  · -- a self-link: the pushed URL is already in the list
    subst hcn
    refine ⟨?_, ?_⟩
    · intro l1 v l2 hsplit hvl u hu
      rw [eL] at hsplit
      rcases split_concat _ l1 l2 c v hsplit with ⟨_, hl1, hvc⟩ | ⟨l2b, _, hL⟩
      · exfalso
        apply hvl
        rw [hl1, hvc]
        simp
      · exact hM l1 v l2b hL hvl u hu
    · intro u hu w hw hwv
      have hu2 : u ∈ visited ++ c :: q := by
        rw [eL] at hu
        rcases List.mem_append.1 hu with hu | hu
        · exact hu
        · simp only [List.mem_singleton] at hu
          subst hu
          simp
      have hw2 : w ∈ c :: q := by
        simp only [List.mem_cons, List.mem_append, List.mem_singleton, List.not_mem_nil,
          or_false] at hw ⊢
        tauto
      exact hB u hu2 w hw2 hwv
  · -- a new URL
    have hcL : c ∉ visited ++ node :: q := by
      simp only [List.mem_append, List.mem_cons, not_or]
      exact ⟨hv, hcn, hq⟩
    obtain ⟨w0, hw0, hw0v, hlt⟩ :=
      unseen_beyond_frontier root expandFn d hd visited (node :: q) hs0 (d c) c rfl hcr hcL
    have hall : ∀ u ∈ visited ++ node :: q, d u ≤ d c := by
      intro u hu
      have := hB u hu w0 hw0 hw0v
      omega
    have hnv : node ∉ visited := fun hn => hcL (h3 node hn c hc)
    have hle : d c ≤ d node + 1 := shortestLen_child_le root expandFn d hd node c hnode hc
    refine ⟨?_, ?_⟩
    · intro l1 v l2 hsplit hvl u hu
      rw [eL] at hsplit
      rcases split_concat _ l1 l2 c v hsplit with ⟨_, hl1, hvc⟩ | ⟨l2b, _, hL⟩
      · rw [hvc]
        exact hall u (hl1 ▸ hu)
      · exact hM l1 v l2b hL hvl u hu
    · intro u hu w hw hwv
      have hw2 : w ∈ node :: q ∨ w = c := by
        simp only [List.mem_cons, List.mem_append, List.mem_singleton, List.not_mem_nil,
          or_false] at hw ⊢
        tauto
      rw [eL] at hu
      rcases List.mem_append.1 hu with huL | huc
      · rcases hw2 with hw2 | hwc
        · exact hB u huL w hw2 hwv
        · have := hall u huL
          rw [hwc]
          omega
      · simp only [List.mem_singleton] at huc
        subst huc
        rcases hw2 with hw2 | rfl
        · -- the expanded URL is not farther from the root than a pending one
          have hnw : d node ≤ d w := by
            rcases List.mem_cons.1 hw2 with rfl | hwq
            · exact le_rfl
            · by_cases hwn : w = node
              · rw [hwn]
              · obtain ⟨q1, q2, hq12, hwq1⟩ := List.eq_append_cons_of_mem hwq
                apply hM (visited ++ node :: q1) w q2
                · rw [hq12]; simp
                · simp only [List.mem_append, List.mem_cons, not_or]
                  exact ⟨hwv, hwn, hwq1⟩
                · simp
          omega
        · omega

/-- The search invariant and the order invariant are kept when the expanded
URL moves to `visited`. -/
theorem orderInv_dequeue (root : α) (expandFn : α → List α × Option ε) (d : α → Nat)
    (visited : List α) (node : α) (q : List α)
    (hinv : SearchInv expandFn root visited (node :: q) ∧ OrderInv d visited (node :: q))
    (hcov : ∀ c, Expands expandFn node c → c ∈ visited ++ node :: q) :
    SearchInv expandFn root (visited ++ [node]) q ∧ OrderInv d (visited ++ [node]) q := by
  obtain ⟨⟨h1, h2, h3⟩, hM, hB⟩ := hinv
  have eL : (visited ++ [node]) ++ q = visited ++ node :: q := by simp
  refine ⟨⟨by rw [eL]; exact h1, ?_, ?_⟩, ?_, ?_⟩
  · intro u hu
    exact h2 u (eL ▸ hu)
  · intro p hp c hc
    rw [eL]
    simp only [List.mem_append, List.mem_singleton] at hp
    rcases hp with hp | rfl
    · exact h3 p hp c hc
    · exact hcov c hc
  · intro l1 v l2 hsplit hvl u hu
    rw [eL] at hsplit
    exact hM l1 v l2 hsplit hvl u hu
  · intro u hu w hw hwv
    rw [eL] at hu
    apply hB u hu w (List.mem_cons_of_mem _ hw)
    intro hwvis
    exact hwv (List.mem_append_left _ hwvis)

/-- In a list returned by `bfs`, what precedes the first occurrence of a URL
is not farther from the root than that URL. -/
theorem bfs_orderInv (root : α) (expandFn : α → List α × Option ε) (d : α → Nat)
    (hd : ∀ u, Reachable expandFn root u → ShortestLen expandFn root u (d u))
    (fuel : Nat) (l : List α) (e : Option ε) (h : bfs fuel root expandFn = some (some l, e)) :
    ∀ l1 v l2, l = l1 ++ v :: l2 → v ∉ l1 → ∀ u ∈ l1, d u ≤ d v := by
  have key := bfsLoop_invariant_push expandFn
    (fun vis pend => SearchInv expandFn root vis pend ∧ OrderInv d vis pend)
    (fun vis node q c hinv hc hv hq => orderInv_push root expandFn d hd vis node q c hinv hc hv hq)
    (fun vis node q hinv hcov => orderInv_dequeue root expandFn d vis node q hinv hcov)
    fuel [root] [] l e ?_ h
  · intro l1 v l2 hsplit
    exact key.2.1 l1 v l2 (by simpa using hsplit)
  · refine ⟨⟨by simp, ?_, ?_⟩, ?_, ?_⟩
    · intro u hu
      simp only [List.nil_append, List.mem_singleton] at hu
      subst hu
      exact Relation.ReflTransGen.refl
    · intro p hp
      simp at hp
    · intro l1 v l2 hsplit _ u hu
      cases l1 with
      | nil => simp at hu
      | cons a t =>
        simp only [List.nil_append, List.cons_append, List.cons.injEq] at hsplit
        have := hsplit.2
        simp at this
    · intro u hu w hw _
      simp only [List.nil_append, List.mem_singleton] at hu hw
      subst hu hw
      omega

/-! ## The claims about `bfs` -/

/-- C1 (the code at the failing input): on the one-page site whose page links
to itself, `bfs` returns the page twice, for every fuel that lets it finish:
the page is pushed onto the frontier a second time while it is being expanded,
and it is expanded twice. -/
theorem bfs_self_link_listed_twice :
    (∀ fuel, bfs (fuel + 2) 0 selfLinkExpand = some (some [0, 0], none)) ∧
    (∀ fuel, (bfsLog (fuel + 2) 0 selfLinkExpand).2 = [0, 0]) ∧
    ¬ ([0, 0] : List Nat).Nodup := by
  refine ⟨?_, ?_, by decide⟩
  · intro fuel
    simp [bfs, bfsLoop, selfLinkExpand, enqueueChildren, contains]
  · intro fuel
    simp [bfsLog, bfsLoopLog, selfLinkExpand, enqueueChildren, contains]

/-- C4: `bfs` returns an error exactly when the expansion of some URL it has
dequeued (a URL of the call log) fails; the list returned with the error is
`nil`, the error is the one of the first failing expansion, unmodified, and
that expansion is the last call made; when the expansion of the root fails,
`(nil, err)` is returned. -/
theorem bfs_error_exactly_on_failed_expansion (root : α)
    (expandFn : α → List α × Option ε) (fuel : Nat) :
    (bfsLog fuel root expandFn).1 = bfs fuel root expandFn ∧
    ((∃ r e, bfs fuel root expandFn = some (r, some e)) ↔
      ∃ u ∈ (bfsLog fuel root expandFn).2, (expandFn u).2 ≠ none) ∧
    (∀ r e, bfs fuel root expandFn = some (r, some e) →
      r = none ∧ ∃ pre u, (bfsLog fuel root expandFn).2 = pre ++ [u] ∧
        (∀ w ∈ pre, (expandFn w).2 = none) ∧ (expandFn u).2 = some e) ∧
    (∀ e, (expandFn root).2 = some e →
      bfs (fuel + 1) root expandFn = some (none, some e)) := by
  obtain ⟨new, h1, h2, h3⟩ := bfsLoopLog_spec expandFn fuel [root] [] []
  have hlog : (bfsLog fuel root expandFn).2 = new := by simpa [bfsLog] using h1
  refine ⟨h2, ?_, ?_, ?_⟩
  · constructor
    · rintro ⟨r, e, hr⟩
      rcases h3 with ⟨_, hb | hb⟩ | ⟨pre, u, e2, hn, _, hu, _⟩
      · rw [bfs, hb] at hr; simp at hr
      · rw [bfs, hb] at hr; simp at hr
      · exact ⟨u, by rw [hlog, hn]; simp, by rw [hu]; simp⟩
    · rintro ⟨u, hu, hfail⟩
      rcases h3 with ⟨ha, _⟩ | ⟨pre, u2, e2, _, _, _, hr⟩
      · rw [hlog] at hu
        exact absurd (ha u hu) hfail
      · exact ⟨none, e2, hr⟩
  · intro r e hr
    rcases h3 with ⟨_, hb | hb⟩ | ⟨pre, u, e2, hn, hp, hu, hr2⟩
    · rw [bfs, hb] at hr; simp at hr
    · rw [bfs, hb] at hr; simp at hr
    · rw [bfs, hr2] at hr
      simp only [Option.some.injEq, Prod.mk.injEq] at hr
      obtain ⟨hr1, hr3⟩ := hr
      subst hr3
      exact ⟨hr1.symm, pre, u, by rw [hlog, hn], hp, hu⟩
  · intro e he
    rcases hexp : expandFn root with ⟨children, err⟩
    rw [hexp] at he
    simp only at he
    subst he
    simp [bfs, bfsLoop, hexp]

/-- C4 at a concrete input: on `failingExpand` the crawl from `0` returns
`(nil, 7)`, after expanding `0` and then `1`, and never expands `2`. -/
theorem bfs_error_exactly_on_failed_expansion_witness :
    bfs 5 0 failingExpand = some (none, some 7) ∧
    ((none : Option (List Nat)) = none ∧
      ∃ pre u, (bfsLog 5 0 failingExpand).2 = pre ++ [u] ∧
        (∀ w ∈ pre, (failingExpand w).2 = none) ∧ (failingExpand u).2 = some 7) ∧
    (bfsLog 5 0 failingExpand).2 = [0, 1] :=
  ⟨by decide,
   (bfs_error_exactly_on_failed_expansion 0 failingExpand 5).2.2.1 none 7 (by decide),
   by decide⟩

/-- C6: a list returned by `bfs` without error is non-empty and its first
element is the root. -/
theorem bfs_root_first (root : α) (expandFn : α → List α × Option ε) (fuel : Nat)
    (l : List α) (h : bfs fuel root expandFn = some (some l, none)) :
    l ≠ [] ∧ l.head? = some root := by
  obtain ⟨t, ht⟩ := bfsLoop_extends expandFn fuel [root] [] l none h
  subst ht
  simp

/-- C6 at a concrete input: the crawl of the diamond graph from `0`. -/
theorem bfs_root_first_witness :
    bfs 4 0 diamondExpand = some (some [0, 1, 2, 3], none) ∧
    (([0, 1, 2, 3] : List Nat) ≠ [] ∧ ([0, 1, 2, 3] : List Nat).head? = some 0) :=
  ⟨by decide, bfs_root_first 0 diamondExpand 4 [0, 1, 2, 3] (by decide)⟩

/-- C2: the URLs of a list returned by `bfs` are exactly the URLs reachable
from the root through the expansion function, the root included.  (A returned
list means that every expansion made has succeeded, so the statement needs no
assumption on the expansion function.) -/
theorem bfs_lists_exactly_reachable (root : α) (expandFn : α → List α × Option ε)
    (fuel : Nat) (l : List α) (h : bfs fuel root expandFn = some (some l, none)) (u : α) :
    u ∈ l ↔ Reachable expandFn root u := by
  obtain ⟨h1, h2, h3⟩ := bfs_searchInv root expandFn fuel l none h
  constructor
  · intro hu
    exact h2 u (by simpa using hu)
  · intro hr
    induction hr with
    | refl => simpa using h1
    | tail _ hstep ih => simpa using h3 _ ih _ hstep

/-- C2 at a concrete input: the crawl of the diamond graph from `0`. -/
theorem bfs_lists_exactly_reachable_witness :
    bfs 4 0 diamondExpand = some (some [0, 1, 2, 3], none) ∧
    (3 ∈ ([0, 1, 2, 3] : List Nat) ↔ Reachable diamondExpand 0 3) :=
  ⟨by decide, bfs_lists_exactly_reachable 0 diamondExpand 4 [0, 1, 2, 3] (by decide) 3⟩

/-- C5: for a never-failing expansion function with finitely many URLs
reachable from the root, `bfs` terminates: some fuel lets it return a list, and
every larger fuel gives the same list (cycles in the link graph included); on
the cyclic graph `A → B → A` with `A ≠ B` the crawl from `A` returns `[A, B]`
as soon as it may run two iterations. -/
theorem bfs_terminates_on_finite_graph :
    (∀ (root : α) (expandFn : α → List α × Option ε),
      (∀ u, (expandFn u).2 = none) →
      Set.Finite {u | Reachable expandFn root u} →
      ∃ fuel l, ∀ k, bfs (fuel + k) root expandFn = some (some l, none)) ∧
    (∀ (A B : α) (expandFn : α → List α × Option ε), A ≠ B →
      expandFn A = ([B], none) → expandFn B = ([A], none) →
      ∀ k, bfs (2 + k) A expandFn = some (some [A, B], none)) := by
  constructor
  · intro root expandFn hnf hfin
    have hB : ∀ visited queue, CountInv expandFn root visited queue →
        visited.length + queue.length ≤ 2 * hfin.toFinset.card := by
      rintro visited queue ⟨h2, h4⟩
      have := length_le_two_mul_card (visited ++ queue) hfin.toFinset h4
        (fun x hx => by simpa using h2 x hx)
      simpa using this
    have hinit : CountInv expandFn root [] [root] := by
      refine ⟨?_, ?_⟩
      · intro u hu
        simp only [List.nil_append, List.mem_singleton] at hu
        subst hu
        exact Relation.ReflTransGen.refl
      · intro x
        simp only [List.nil_append, List.count_cons, List.count_nil]
        split <;> omega
    obtain ⟨l, hl⟩ := bfsLoop_terminates expandFn hnf (CountInv expandFn root)
      (countInv_step root expandFn) _ hB (2 * hfin.toFinset.card) [root] [] hinit (by simp)
    exact ⟨2 * hfin.toFinset.card, l, fun k => bfsLoop_fuel_mono expandFn _ k _ _ _ hl⟩
  · intro A B expandFn hAB hA hB k
    have hBA : ¬ B = A := fun h => hAB h.symm
    have e : 2 + k = (k + 1) + 1 := by omega
    rw [e]
    simp [bfs, bfsLoop, hA, hB, enqueueChildren, contains, hAB, hBA]

/-- C5 at a concrete input: the cyclic graph `0 → 1 → 0`, whose reachable set
is finite, crawled from `0`. -/
theorem bfs_terminates_on_finite_graph_witness :
    ((∀ u, (cycleExpand u).2 = none) ∧
      Set.Finite {u | Reachable cycleExpand 0 u} ∧
      ∃ fuel l, ∀ k, bfs (fuel + k) 0 cycleExpand = some (some l, none)) ∧
    ((0 : Nat) ≠ 1 ∧ cycleExpand 0 = ([1], none) ∧ cycleExpand 1 = ([0], none) ∧
      bfs (2 + 0) 0 cycleExpand = some (some [0, 1], none)) := by
  have hnf : ∀ u, (cycleExpand u).2 = none := by
    intro u
    unfold cycleExpand
    split <;> rfl
  have hfin : Set.Finite {u | Reachable cycleExpand 0 u} := by
    apply Set.Finite.subset (Set.toFinite ({0, 1} : Set Nat))
    intro u hu
    induction hu with
    | refl => simp
    | tail _ hstep _ =>
      rename_i b c _
      unfold Expands cycleExpand at hstep
      split at hstep <;> simp at hstep <;> simp [hstep]
  exact ⟨⟨hnf, hfin,
      (@bfs_terminates_on_finite_graph Nat Nat _).1 0 cycleExpand hnf hfin⟩,
    by decide, rfl, rfl,
    (@bfs_terminates_on_finite_graph Nat Nat _).2 0 1 cycleExpand (by decide)
      rfl rfl 0⟩

/-- C3: a list returned by `bfs` is in breadth-first discovery order: when the
first occurrence of `u` precedes the first occurrence of `v`, both have a
shortest expansion path from the root and the one of `u` is not longer than
the one of `v`. -/
theorem bfs_breadth_first_order (root : α) (expandFn : α → List α × Option ε)
    (fuel : Nat) (l : List α) (h : bfs fuel root expandFn = some (some l, none))
    (u v : α) (hu : u ∈ l) (hv : v ∈ l) (hlt : l.indexOf u < l.indexOf v) :
    ∃ du dv, ShortestLen expandFn root u du ∧ ShortestLen expandFn root v dv ∧ du ≤ dv := by
  classical
  have hreach : ∀ x, x ∈ l → Reachable expandFn root x := fun x hx =>
    (bfs_searchInv root expandFn fuel l none h).2.1 x (by simpa using hx)
  have hex : ∀ x, ∃ k, Reachable expandFn root x → ShortestLen expandFn root x k := by
    intro x
    by_cases hx : Reachable expandFn root x
    · obtain ⟨k, hk⟩ := exists_shortestLen root expandFn x hx
      exact ⟨k, fun _ => hk⟩
    · exact ⟨0, fun hx2 => absurd hx2 hx⟩
  choose d hd using hex
  refine ⟨d u, d v, hd u (hreach u hu), hd v (hreach v hv), ?_⟩
  obtain ⟨l1, l2, hl, hvl⟩ := List.eq_append_cons_of_mem hv
  have hiv : l.indexOf v = l1.length := by
    rw [hl, List.indexOf_append_of_not_mem hvl]
    simp
  have hul : u ∈ l1 := by
    by_contra hul
    have hiu : l.indexOf u ≥ l1.length := by
      rw [hl, List.indexOf_append_of_not_mem hul]
      omega
    omega
  exact bfs_orderInv root expandFn d hd fuel l none h l1 v l2 hl hvl u hul

/-- C3 at a concrete input: in the crawl of the diamond graph from `0`, the
URL `1` (one edge from the root) comes before `3` (two edges from the root). -/
theorem bfs_breadth_first_order_witness :
    bfs 4 0 diamondExpand = some (some [0, 1, 2, 3], none) ∧
    ([0, 1, 2, 3] : List Nat).indexOf 1 < ([0, 1, 2, 3] : List Nat).indexOf 3 ∧
    ∃ du dv, ShortestLen diamondExpand 0 1 du ∧ ShortestLen diamondExpand 0 3 dv ∧ du ≤ dv :=
  ⟨by decide, by decide,
    bfs_breadth_first_order 0 diamondExpand 4 [0, 1, 2, 3] (by decide) 1 3
      (by decide) (by decide) (by decide)⟩

end Bfs

/-! ## The claims about `filterLink` -/

theorem filterLink_eq_acceptResolved (urlParse : String → Option URL)
    (urlString : URL → String) (lnk : Link.Link) (domain : URL) :
    filterLink urlParse urlString lnk domain =
      acceptResolved domain (resolve urlParse urlString lnk.Href domain) := by
  unfold filterLink resolve
  rcases h1 : urlParse lnk.Href with _ | p
  · simp [acceptResolved]
  · by_cases hp : p.Host = ""
    · simp only [hp, if_true]
      rcases urlParse (urlString domain ++ lnk.Href) with _ | u
      · simp [acceptResolved]
      · simp only [acceptResolved]
        by_cases hu : hasPrefix u.Scheme "http" = true <;> by_cases hh : u.Host = domain.Host <;>
          simp [hu, hh]
    · simp only [hp, if_false, acceptResolved]
      by_cases hu : hasPrefix p.Scheme "http" = true <;> by_cases hh : p.Host = domain.Host <;>
        simp [hu, hh]

theorem acceptResolved_eq_some (domain : URL) (r : Option URL) (u : URL) :
    acceptResolved domain r = (some u, true) ↔
      (r = some u ∧ hasPrefix u.Scheme "http" = true ∧ u.Host = domain.Host) := by
  rcases r with _ | w
  · simp [acceptResolved]
  · by_cases hc : hasPrefix w.Scheme "http" = true ∧ w.Host = domain.Host
    · simp only [acceptResolved, if_pos hc, Prod.mk.injEq, Option.some.injEq, and_true]
      constructor
      · intro e; subst e; exact ⟨rfl, hc⟩
      · intro e; exact e.1
    · simp only [acceptResolved, if_neg hc, Prod.mk.injEq, Option.some.injEq]
      constructor
      · intro e; simp at e
      · rintro ⟨e, h1, h2⟩
        subst e
        exact absurd ⟨h1, h2⟩ hc

theorem acceptResolved_cases (domain : URL) (r : Option URL) :
    (∃ u, acceptResolved domain r = (some u, true)) ∨ acceptResolved domain r = (none, false) := by
  rcases r with _ | w
  · right; rfl
  · by_cases hc : hasPrefix w.Scheme "http" = true ∧ w.Host = domain.Host
    · left; exact ⟨w, by simp [acceptResolved, hc]⟩
    · right; simp [acceptResolved, hc]

/-- C9: `filterLink` returns `(u, true)` exactly when the href resolves to `u`,
the scheme of `u` begins with `http` and the host of `u` is equal, as a string,
to the host of the base domain; in every other case it returns `(nil, false)`:
when the href is unparsable, when the concatenated string is unparsable, when
the scheme is another one, when the host is another one. -/
theorem filterLink_accepts_iff (urlParse : String → Option URL)
    (urlString : URL → String) (lnk : Link.Link) (domain : URL) :
    (∀ u, filterLink urlParse urlString lnk domain = (some u, true) ↔
      (resolve urlParse urlString lnk.Href domain = some u ∧
        hasPrefix u.Scheme "http" = true ∧ u.Host = domain.Host)) ∧
    ((¬ ∃ u, resolve urlParse urlString lnk.Href domain = some u ∧
        hasPrefix u.Scheme "http" = true ∧ u.Host = domain.Host) →
      filterLink urlParse urlString lnk domain = (none, false)) ∧
    (urlParse lnk.Href = none → filterLink urlParse urlString lnk domain = (none, false)) ∧
    (∀ p, urlParse lnk.Href = some p → p.Host = "" →
      urlParse (urlString domain ++ lnk.Href) = none →
      filterLink urlParse urlString lnk domain = (none, false)) ∧
    (∀ u, resolve urlParse urlString lnk.Href domain = some u →
      hasPrefix u.Scheme "http" = false →
      filterLink urlParse urlString lnk domain = (none, false)) ∧
    (∀ u, resolve urlParse urlString lnk.Href domain = some u → u.Host ≠ domain.Host →
      filterLink urlParse urlString lnk domain = (none, false)) := by
  have key := filterLink_eq_acceptResolved urlParse urlString lnk domain
  have hiff : ∀ u, filterLink urlParse urlString lnk domain = (some u, true) ↔
      (resolve urlParse urlString lnk.Href domain = some u ∧
        hasPrefix u.Scheme "http" = true ∧ u.Host = domain.Host) := by
    intro u
    rw [key]
    exact acceptResolved_eq_some domain _ u
  have hrej : (¬ ∃ u, resolve urlParse urlString lnk.Href domain = some u ∧
        hasPrefix u.Scheme "http" = true ∧ u.Host = domain.Host) →
      filterLink urlParse urlString lnk domain = (none, false) := by
    intro hno
    rcases acceptResolved_cases domain (resolve urlParse urlString lnk.Href domain) with
      ⟨u, hu⟩ | hn
    · exact absurd ⟨u, (acceptResolved_eq_some domain _ u).1 hu⟩ hno
    · rw [key]; exact hn
  refine ⟨hiff, hrej, ?_, ?_, ?_, ?_⟩
  · intro h
    apply hrej
    rintro ⟨u, hu, _⟩
    simp [resolve, h] at hu
  · intro p hp hhost h2
    apply hrej
    rintro ⟨u, hu, _⟩
    simp [resolve, hp, hhost, h2] at hu
  · intro u hu hs
    apply hrej
    rintro ⟨w, hw, hws, _⟩
    rw [hu] at hw
    simp only [Option.some.injEq] at hw
    subst hw
    rw [hs] at hws
    exact absurd hws (by simp)
  · intro u hu hh
    apply hrej
    rintro ⟨w, hw, _, hwh⟩
    rw [hu] at hw
    simp only [Option.some.injEq] at hw
    subst hw
    exact hh hwh

/-- C9 at concrete inputs, against the base domain `http://x.com`: `/a` is
accepted as `http://x.com/a`; `http://other.com/a` is rejected for its host,
and so are `http://X.com/a` (case) and `http://x.com:80/a` (port);
`ftp://x.com/a` is rejected for its scheme; `not a url` is rejected because the
concatenated string does not parse; an unparsable href is rejected. -/
theorem filterLink_accepts_iff_witness :
    (filterLink sampleParse sampleString ⟨"/a", ""⟩ xcom = (some (mkURL "http" "x.com" "/a"), true)) ∧
    (filterLink sampleParse sampleString ⟨"http://other.com/a", ""⟩ xcom = (none, false)) ∧
    (filterLink sampleParse sampleString ⟨"http://X.com/a", ""⟩ xcom = (none, false)) ∧
    (filterLink sampleParse sampleString ⟨"http://x.com:80/a", ""⟩ xcom = (none, false)) ∧
    (filterLink sampleParse sampleString ⟨"ftp://x.com/a", ""⟩ xcom = (none, false)) ∧
    (filterLink sampleParse sampleString ⟨"not a url", ""⟩ xcom = (none, false)) ∧
    (filterLink sampleParse sampleString ⟨"%zz", ""⟩ xcom = (none, false)) :=
  ⟨((filterLink_accepts_iff sampleParse sampleString ⟨"/a", ""⟩ xcom).1 _).2
      ⟨by decide, by decide, by decide⟩,
    (filterLink_accepts_iff sampleParse sampleString ⟨"http://other.com/a", ""⟩ xcom).2.2.2.2.2
      (mkURL "http" "other.com" "/a") (by decide) (by decide),
    (filterLink_accepts_iff sampleParse sampleString ⟨"http://X.com/a", ""⟩ xcom).2.2.2.2.2
      (mkURL "http" "X.com" "/a") (by decide) (by decide),
    (filterLink_accepts_iff sampleParse sampleString ⟨"http://x.com:80/a", ""⟩ xcom).2.2.2.2.2
      (mkURL "http" "x.com:80" "/a") (by decide) (by decide),
    (filterLink_accepts_iff sampleParse sampleString ⟨"ftp://x.com/a", ""⟩ xcom).2.2.2.2.1
      (mkURL "ftp" "x.com" "/a") (by decide) (by decide),
    (filterLink_accepts_iff sampleParse sampleString ⟨"not a url", ""⟩ xcom).2.2.2.1
      (mkURL "" "" "not a url") (by decide) (by decide) (by decide),
    (filterLink_accepts_iff sampleParse sampleString ⟨"%zz", ""⟩ xcom).2.2.1 (by decide)⟩

/-- C10: when the href parses to a URL with an empty host, `filterLink` resolves
it as the parse of the base domain's string form followed by the href verbatim
and accepts or rejects that parse; when the href parses to a URL with a host,
the resolved URL is the parsed href and the result does not depend on the
string form of the base domain; and `/a` against `http://x.com` resolves to the
parse of `http://x.com/a` and is accepted. -/
theorem filterLink_resolution (urlParse : String → Option URL) (urlString : URL → String)
    (lnk : Link.Link) (domain : URL) (p : URL) (hp : urlParse lnk.Href = some p) :
    (p.Host = "" →
      resolve urlParse urlString lnk.Href domain = urlParse (urlString domain ++ lnk.Href) ∧
      filterLink urlParse urlString lnk domain =
        acceptResolved domain (urlParse (urlString domain ++ lnk.Href))) ∧
    (p.Host ≠ "" →
      resolve urlParse urlString lnk.Href domain = some p ∧
      filterLink urlParse urlString lnk domain = acceptResolved domain (some p) ∧
      ∀ urlString2 : URL → String,
        filterLink urlParse urlString2 lnk domain = filterLink urlParse urlString lnk domain) ∧
    (lnk.Href = "/a" → p.Host = "" → urlString domain = "http://x.com" →
      domain.Host = "x.com" →
      ∀ u, urlParse "http://x.com/a" = some u → u.Scheme = "http" → u.Host = "x.com" →
        filterLink urlParse urlString lnk domain = (some u, true)) := by
  have key := filterLink_eq_acceptResolved urlParse urlString lnk domain
  refine ⟨?_, ?_, ?_⟩
  · intro hh
    have hr : resolve urlParse urlString lnk.Href domain =
        urlParse (urlString domain ++ lnk.Href) := by
      simp [resolve, hp, hh]
    exact ⟨hr, by rw [key, hr]⟩
  · intro hh
    have hr : ∀ str : URL → String, resolve urlParse str lnk.Href domain = some p := by
      intro str
      simp [resolve, hp, hh]
    refine ⟨hr urlString, by rw [key, hr urlString], ?_⟩
    intro urlString2
    rw [key, filterLink_eq_acceptResolved urlParse urlString2 lnk domain, hr urlString,
      hr urlString2]
  · intro ha hh hs hd u hu hsch hhost
    have hcat : ("http://x.com" ++ "/a" : String) = "http://x.com/a" := by decide
    have hr : resolve urlParse urlString lnk.Href domain = some u := by
      rw [ha] at hp
      simp only [resolve, ha, hp, hh, if_true, hs, hcat]
      exact hu
    rw [key, hr]
    have : hasPrefix u.Scheme "http" = true := by rw [hsch]; decide
    simp [acceptResolved, this, hhost, hd]

/-- C10 at concrete inputs, against the base domain `http://x.com`: `/a`
resolves to `http://x.com/a` and is accepted; `http://x.com/a` is resolved as
itself, whatever the string form of the base domain is. -/
theorem filterLink_resolution_witness :
    (filterLink sampleParse sampleString ⟨"/a", ""⟩ xcom =
      (some (mkURL "http" "x.com" "/a"), true)) ∧
    (resolve sampleParse sampleString "/a" xcom = sampleParse (sampleString xcom ++ "/a")) ∧
    (resolve sampleParse sampleString "http://x.com/a" xcom = some (mkURL "http" "x.com" "/a") ∧
      filterLink sampleParse sampleString ⟨"http://x.com/a", ""⟩ xcom =
        acceptResolved xcom (some (mkURL "http" "x.com" "/a")) ∧
      ∀ urlString2 : URL → String,
        filterLink sampleParse urlString2 ⟨"http://x.com/a", ""⟩ xcom =
          filterLink sampleParse sampleString ⟨"http://x.com/a", ""⟩ xcom) :=
  ⟨(filterLink_resolution sampleParse sampleString ⟨"/a", ""⟩ xcom (mkURL "" "" "/a")
      (by decide)).2.2 rfl (by decide) (by decide) (by decide) (mkURL "http" "x.com" "/a")
      (by decide) (by decide) (by decide),
   ((filterLink_resolution sampleParse sampleString ⟨"/a", ""⟩ xcom (mkURL "" "" "/a")
      (by decide)).1 (by decide)).1,
   (filterLink_resolution sampleParse sampleString ⟨"http://x.com/a", ""⟩ xcom
      (mkURL "http" "x.com" "/a") (by decide)).2.1 (by decide)⟩

end Sitemap

/-! ## The claims about the link extractor -/

namespace Link

mutual
/-- Below an anchor nothing is listed as an anchor without anchor ancestor. -/
theorem preorder_under_anchor : ∀ (n : Node) (anc : List Node),
    anc.any isAnchor = true → topAnchorLinks (preorder anc n) = []
  | .mk type dataAtom data attr children, anc, h => by
    have h2 : (Node.mk type dataAtom data attr children :: anc).any isAnchor = true := by
      simp only [List.any_cons, h, Bool.or_true]
    have ih := preorderList_under_anchor children _ h2
    have h3 : isTopAnchor (Node.mk type dataAtom data attr children, anc) = false := by
      unfold isTopAnchor
      have : anc.all (fun a => !isAnchor a) = false := by
        rw [← Bool.not_eq_true]
        intro hall
        rw [List.any_eq_true] at h
        obtain ⟨a, ha, haa⟩ := h
        have := (List.all_eq_true.1 hall) a ha
        simp [haa] at this
      simp [this]
    unfold topAnchorLinks at ih ⊢
    rw [preorder, List.filter_cons, h3]
    simpa using ih
/-- The same for a list of siblings. -/
theorem preorderList_under_anchor : ∀ (cs : List Node) (anc : List Node),
    anc.any isAnchor = true → topAnchorLinks (preorderList anc cs) = []
  | [], anc, _ => by simp [preorderList, topAnchorLinks]
  | c :: rest, anc, h => by
    have h1 := preorder_under_anchor c anc h
    have h2 := preorderList_under_anchor rest anc h
    unfold topAnchorLinks at h1 h2 ⊢
    rw [preorderList, List.filter_append, List.map_append, h1, h2]
    rfl
end

mutual
/-- Under ancestors that are not anchors, `findLinks` returns the links of the
anchors without anchor ancestor, in pre-order. -/
theorem findLinks_eq : ∀ (n : Node) (anc : List Node),
    anc.all (fun a => !isAnchor a) = true → findLinks n = topAnchorLinks (preorder anc n)
  | .mk type dataAtom data attr children, anc, h => by
    by_cases ha : type = NodeType.ElementNode ∧ dataAtom = atom_A
    · have hA : isAnchor (Node.mk type dataAtom data attr children) = true := by
        simp [isAnchor, Node.type, Node.dataAtom, ha.1, ha.2]
      have h2 : (Node.mk type dataAtom data attr children :: anc).any isAnchor = true := by
        simp only [List.any_cons, hA, Bool.true_or]
      have hu := preorderList_under_anchor children _ h2
      have h3 : isTopAnchor (Node.mk type dataAtom data attr children, anc) = true := by
        simp only [isTopAnchor, hA, h, Bool.and_self]
      unfold topAnchorLinks at hu ⊢
      rw [findLinks, if_pos ha, preorder, List.filter_cons, h3]
      simp only [if_true, List.map_cons, hu]
    · have hA : isAnchor (Node.mk type dataAtom data attr children) = false := by
        rw [← Bool.not_eq_true]
        intro hA
        apply ha
        simpa [isAnchor, Node.type, Node.dataAtom] using hA
      have h2 : (Node.mk type dataAtom data attr children :: anc).all (fun a => !isAnchor a)
          = true := by
        simp only [List.all_cons, hA, h, Bool.not_false, Bool.and_self]
      have ih := findLinksLoop_eq children _ [] h2
      have h3 : isTopAnchor (Node.mk type dataAtom data attr children, anc) = false := by
        simp [isTopAnchor, hA]
      rw [findLinks, if_neg ha, ih]
      unfold topAnchorLinks
      rw [preorder, List.filter_cons, h3]
      simp
/-- The same for the loop over the children, with its accumulator. -/
theorem findLinksLoop_eq : ∀ (cs : List Node) (anc : List Node) (links : List Link),
    anc.all (fun a => !isAnchor a) = true →
    findLinksLoop links cs = links ++ topAnchorLinks (preorderList anc cs)
  | [], anc, links, _ => by simp [findLinksLoop, preorderList, topAnchorLinks]
  | c :: rest, anc, links, h => by
    have h1 := findLinks_eq c anc h
    have h2 := findLinksLoop_eq rest anc (links ++ findLinks c) h
    rw [findLinksLoop, h2, h1]
    unfold topAnchorLinks
    rw [preorderList, List.filter_append, List.map_append, List.append_assoc]
end

/-- C7: for every document tree, `findLinks` returns one link for each anchor
element that has no anchor element among its proper ancestors, in document
pre-order, and no link for an anchor inside the subtree of another anchor: it
is the pre-order listing of all nodes, filtered to the anchors without anchor
ancestor, each mapped to its link. -/
theorem findLinks_preorder_top_anchors (doc : Node) :
    findLinks doc =
      ((preorder [] doc).filter
        (fun p => isAnchor p.1 && p.2.all (fun a => !isAnchor a))).map
        (fun p => buildLink p.1) :=
  findLinks_eq doc [] rfl

/-- C8 (the code at the failing input): for the anchor
`<a href="/x">foo<b> bar</b></a>` the text of the link is `foobar`, while the raw
text of its descendant text nodes, `foo bar`, collapsed and trimmed is
`foo bar`: the white space at the start of the inner element is dropped by the
collapse that `extractText` applies to the inner element on its own. -/
theorem extractText_drops_inner_boundary_space :
    (buildLink anchorFooBar).Text = "foobar" ∧
    descendantText anchorFooBar = "foo bar" ∧
    collapseSpace (descendantText anchorFooBar) = "foo bar" ∧
    (buildLink anchorFooBar).Text ≠ collapseSpace (descendantText anchorFooBar) := by
  decide

/-- The result of `findHref` is the value of the first attribute with key
`href`, if there is one. -/
theorem findHref_eq_find (attrs : List Attribute) :
    findHref attrs =
      match attrs.find? (fun a => a.Key = "href") with
      | some a => (a.Val, true)
      | none => ("", false) := by
  induction attrs with
  | nil => rfl
  | cons a rest ih =>
    by_cases h : a.Key = "href"
    · simp [findHref, List.find?, h]
    · simp [findHref, List.find?, h, ih]

/-- C14: for every anchor element, `findLinks` yields the link built from it,
whose `Href` is the value of the first attribute with key `href` and the empty
string when there is no such attribute (the link is yielded all the same); and
the second result of `findHref` is `true` exactly when an attribute with key
`href` exists. -/
theorem buildLink_href_first_attribute (n : Node) (h : isAnchor n = true) :
    findLinks n = [buildLink n] ∧
    (∀ pre a post, n.attr = pre ++ a :: post → a.Key = "href" →
      (∀ b ∈ pre, b.Key ≠ "href") → (buildLink n).Href = a.Val) ∧
    ((∀ b ∈ n.attr, b.Key ≠ "href") →
      (buildLink n).Href = "" ∧ findLinks n = [⟨"", extractText n⟩]) ∧
    ((findHref n.attr).2 = true ↔ ∃ a ∈ n.attr, a.Key = "href") ∧
    (findHref n.attr).1 = (buildLink n).Href := by
  obtain ⟨type, dataAtom, data, attr, children⟩ := n
  have ha : type = NodeType.ElementNode ∧ dataAtom = atom_A := by
    simpa [isAnchor, Node.type, Node.dataAtom] using h
  have hfl : findLinks (Node.mk type dataAtom data attr children) =
      [buildLink (Node.mk type dataAtom data attr children)] := by
    rw [findLinks, if_pos ha]
  have hnone : (∀ b ∈ attr, b.Key ≠ "href") →
      attr.find? (fun a => a.Key = "href") = none := by
    intro hall
    rw [List.find?_eq_none]
    intro b hb
    simpa using hall b hb
  refine ⟨hfl, ?_, ?_, ?_, rfl⟩
  · intro pre a post hsplit hkey hpre
    simp only [Node.attr] at hsplit
    have hfind : attr.find? (fun a => a.Key = "href") = some a := by
      rw [hsplit, List.find?_append]
      have : pre.find? (fun a => a.Key = "href") = none := by
        rw [List.find?_eq_none]
        intro b hb
        simpa using hpre b hb
      simp [this, List.find?, hkey]
    simp [buildLink, Node.attr, findHref_eq_find, hfind]
  · intro hall
    simp only [Node.attr] at hall
    have hhref : (buildLink (Node.mk type dataAtom data attr children)).Href = "" := by
      simp [buildLink, Node.attr, findHref_eq_find, hnone hall]
    refine ⟨hhref, ?_⟩
    rw [hfl]
    simp only [List.cons.injEq, and_true]
    have : buildLink (Node.mk type dataAtom data attr children) =
        ⟨(buildLink (Node.mk type dataAtom data attr children)).Href,
          extractText (Node.mk type dataAtom data attr children)⟩ := rfl
    rw [this, hhref]
  · simp only [Node.attr]
    rw [findHref_eq_find]
    constructor
    · intro h2
      rcases hf : attr.find? (fun a => a.Key = "href") with _ | a
      · rw [hf] at h2
        simp at h2
      · exact ⟨a, List.mem_of_find?_eq_some hf, by simpa using List.find?_some hf⟩
    · rintro ⟨a, ha1, ha2⟩
      rcases hf : attr.find? (fun a => a.Key = "href") with _ | b
      · rw [List.find?_eq_none] at hf
        exact absurd ha2 (by simpa using hf a ha1)
      · rw [hf]

/-- C14 at concrete inputs: an anchor with two `href` attributes takes the first
one; an anchor without `href` yields a link with empty `Href`. -/
theorem buildLink_href_first_attribute_witness :
    ((buildLink (anchorNode [⟨"", "class", "c"⟩, ⟨"", "href", "/one"⟩, ⟨"", "href", "/two"⟩])).Href
      = "/one") ∧
    ((buildLink (anchorNode [⟨"", "class", "c"⟩])).Href = "" ∧
      findLinks (anchorNode [⟨"", "class", "c"⟩]) =
        [⟨"", extractText (anchorNode [⟨"", "class", "c"⟩])⟩]) ∧
    (findHref [⟨"", "class", "c"⟩, ⟨"", "HREF", "/three"⟩]).2 = false :=
  ⟨(buildLink_href_first_attribute
      (anchorNode [⟨"", "class", "c"⟩, ⟨"", "href", "/one"⟩, ⟨"", "href", "/two"⟩])
      (by decide)).2.1 [⟨"", "class", "c"⟩] ⟨"", "href", "/one"⟩ [⟨"", "href", "/two"⟩] rfl
      (by decide) (by decide),
   (buildLink_href_first_attribute (anchorNode [⟨"", "class", "c"⟩]) (by decide)).2.2.1
      (by decide),
   by decide⟩

end Link

/-! ## The claims about the redirect handlers -/

namespace Urlshort

theorem buildMapLoop_append (m0 : String → Option String) (l1 l2 : List pathMapping) :
    buildMapLoop m0 (l1 ++ l2) = buildMapLoop (buildMapLoop m0 l1) l2 := by
  induction l1 generalizing m0 with
  | nil => rfl
  | cons a rest ih => simp [buildMapLoop, ih]

/-- Mappings with other paths leave the value at a path unchanged. -/
theorem buildMapLoop_other (m0 : String → Option String) (l : List pathMapping) (k : String)
    (h : ∀ m ∈ l, m.Path ≠ k) : buildMapLoop m0 l k = m0 k := by
  induction l generalizing m0 with
  | nil => rfl
  | cons a rest ih =>
    have ha : ¬ k = a.Path := fun e => h a (by simp) e.symm
    rw [buildMapLoop, ih _ (fun m hm => h m (by simp [hm]))]
    simp [ha]

/-- The value at a path is the URL of the last mapping with that path. -/
theorem buildMapLoop_last (m0 : String → Option String) (pre post : List pathMapping)
    (m : pathMapping) (h : ∀ m2 ∈ post, m2.Path ≠ m.Path) :
    buildMapLoop m0 (pre ++ m :: post) m.Path = some m.URL := by
  rw [buildMapLoop_append, buildMapLoop, buildMapLoop_other _ post m.Path h]
  simp

/-- A list that has a mapping with path `k` splits at the last such mapping. -/
theorem exists_last_mapping (l : List pathMapping) (k : String)
    (h : ∃ m ∈ l, m.Path = k) :
    ∃ pre m post, l = pre ++ m :: post ∧ m.Path = k ∧ ∀ m2 ∈ post, m2.Path ≠ k := by
  induction l with
  | nil => simp at h
  | cons a rest ih =>
    by_cases hr : ∃ m ∈ rest, m.Path = k
    · obtain ⟨pre, m, post, hl, hm, hpost⟩ := ih hr
      exact ⟨a :: pre, m, post, by simp [hl], hm, hpost⟩
    · obtain ⟨m, hm, hk⟩ := h
      rcases List.mem_cons.1 hm with rfl | hm
      · refine ⟨[], m, rest, rfl, hk, ?_⟩
        intro m2 hm2 hk2
        exact hr ⟨m2, hm2, hk2⟩
      · exact absurd ⟨m, hm, hk⟩ hr

/-- The handler is the redirect on a key of the map, whatever the fallback is,
and the fallback otherwise. -/
theorem MapHandler_cases {W R : Type} (requestPath : R → String)
    (httpRedirect : W → R → String → Nat → W) (pathsToUrls : String → Option String)
    (fallback : W → R → W) (response : W) (request : R) :
    (∀ dest, pathsToUrls (requestPath request) = some dest →
      MapHandler requestPath httpRedirect pathsToUrls fallback response request =
        httpRedirect response request dest 302 ∧
      ∀ fallback2 : W → R → W,
        MapHandler requestPath httpRedirect pathsToUrls fallback2 response request =
          MapHandler requestPath httpRedirect pathsToUrls fallback response request) ∧
    (pathsToUrls (requestPath request) = none →
      MapHandler requestPath httpRedirect pathsToUrls fallback response request =
        fallback response request) := by
  constructor
  · intro dest h
    simp [MapHandler, h, StatusFound]
  · intro h
    simp [MapHandler, h]

theorem WriteHeader_Header (w : ResponseWriter) (code : Nat) :
    (w.WriteHeader code).Header = w.Header := by
  unfold ResponseWriter.WriteHeader
  split <;> rfl

theorem Write_Header (w : ResponseWriter) (data : String) :
    (w.Write data).Header = w.Header := by
  simp [ResponseWriter.Write, WriteHeader_Header]

/-- The `Location` header that `http.Redirect` leaves is the escaped target. -/
theorem Redirect_Location (urlParse : String → Option Sitemap.URL) (w : ResponseWriter)
    (r : Request) (url : String) (code : Nat) :
    (Redirect urlParse w r url code).Header "Location" =
      some (hexEscapeNonASCII (redirectTarget urlParse r.Path url)) := by
  have hne : ¬ ("Location" = "Content-Type") := by decide
  unfold Redirect
  simp only
  split <;> split <;>
    simp [Write_Header, WriteHeader_Header, ResponseWriter.setHeader, hne]

/-- On a response whose header has not been written, `http.Redirect` leaves the
status code it is given. -/
theorem Redirect_Code (urlParse : String → Option Sitemap.URL) (w : ResponseWriter)
    (r : Request) (url : String) (code : Nat) (hw : w.wroteHeader = false) :
    (Redirect urlParse w r url code).Code = code := by
  unfold Redirect
  simp only
  split <;> split <;>
    simp [ResponseWriter.Write, ResponseWriter.WriteHeader, ResponseWriter.setHeader, hw]

/-- A URL that does not parse, or parses with a scheme or a host, is its own
redirect target. -/
theorem redirectTarget_absolute (urlParse : String → Option Sitemap.URL)
    (requestPath url : String)
    (h : ∀ u, urlParse url = some u → u.Scheme ≠ "" ∨ u.Host ≠ "") :
    redirectTarget urlParse requestPath url = url := by
  unfold redirectTarget
  rcases hp : urlParse url with _ | u
  · rfl
  · have := h u hp
    have hn : ¬ (u.Scheme = "" ∧ u.Host = "") := by
      rintro ⟨h1, h2⟩
      rcases this with h3 | h3
      · exact h3 h1
      · exact h3 h2
    simp only [hn, if_false]

theorem hexEscapeNonASCII_ascii (s : String) (h : ∀ c ∈ s.data, c.toNat < 128) :
    hexEscapeNonASCII s = s := by
  unfold hexEscapeNonASCII
  rw [if_pos]
  rw [List.all_eq_true]
  intro c hc
  simpa using h c hc

/-- C16 (the claim at a failing input): with the map `/dir/page ↦ other`, the
request `GET /dir/page` is answered with status 302, but the `Location` is
`/dir/other`, the mapped URL made absolute against the request path, and not
the mapped URL `other`. -/
theorem MapHandler_relative_destination_rewritten :
    buildMap [⟨"/dir/page", "other"⟩] "/dir/page" = some "other" ∧
    (MapHandler Request.Path (Redirect redirectParse) (buildMap [⟨"/dir/page", "other"⟩])
      helloFallback newRecorder ⟨"GET", "/dir/page"⟩).Code = 302 ∧
    (MapHandler Request.Path (Redirect redirectParse) (buildMap [⟨"/dir/page", "other"⟩])
      helloFallback newRecorder ⟨"GET", "/dir/page"⟩).Header "Location" = some "/dir/other" ∧
    (MapHandler Request.Path (Redirect redirectParse) (buildMap [⟨"/dir/page", "other"⟩])
      helloFallback newRecorder ⟨"GET", "/dir/page"⟩).Header "Location" ≠ some "other" := by
  refine ⟨by decide, by decide, by decide, by decide⟩

/-- C16 (amended): when the request path is a key of the map, the handler
returned by `MapHandler` answers with the redirect of `http.Redirect`, whatever
the fallback handler is: the `Location` is the mapped URL as `http.Redirect`
renders it (made absolute against the request path and cleaned when it is
relative, non-ASCII bytes escaped), which is the mapped URL itself when that
URL is ASCII and either does not parse or parses with a scheme or a host; and
the status is 302 (Found) when the header of the response has not been written
before.  When the path is not a key, the response is exactly the response of
the fallback handler. -/
theorem MapHandler_redirects_with_location (urlParse : String → Option Sitemap.URL)
    (pathsToUrls : String → Option String)
    (fallback : ResponseWriter → Request → ResponseWriter)
    (response : ResponseWriter) (request : Request) :
    (∀ dest, pathsToUrls request.Path = some dest →
      (MapHandler Request.Path (Redirect urlParse) pathsToUrls fallback response
          request).Header "Location" =
        some (hexEscapeNonASCII (redirectTarget urlParse request.Path dest)) ∧
      ((∀ u, urlParse dest = some u → u.Scheme ≠ "" ∨ u.Host ≠ "") →
        (∀ c ∈ dest.data, c.toNat < 128) →
        (MapHandler Request.Path (Redirect urlParse) pathsToUrls fallback response
          request).Header "Location" = some dest) ∧
      (response.wroteHeader = false →
        (MapHandler Request.Path (Redirect urlParse) pathsToUrls fallback response
          request).Code = 302) ∧
      (∀ fallback2 : ResponseWriter → Request → ResponseWriter,
        MapHandler Request.Path (Redirect urlParse) pathsToUrls fallback2 response request =
          MapHandler Request.Path (Redirect urlParse) pathsToUrls fallback response request)) ∧
    (pathsToUrls request.Path = none →
      MapHandler Request.Path (Redirect urlParse) pathsToUrls fallback response request =
        fallback response request) := by
  obtain ⟨h1, h2⟩ := MapHandler_cases Request.Path (Redirect urlParse) pathsToUrls fallback
    response request
  refine ⟨?_, h2⟩
  intro dest hd
  obtain ⟨he, hf⟩ := h1 dest hd
  refine ⟨?_, ?_, ?_, hf⟩
  · rw [he, Redirect_Location]
  · intro habs hascii
    rw [he, Redirect_Location, redirectTarget_absolute urlParse _ dest habs,
      hexEscapeNonASCII_ascii dest hascii]
  · intro hw
    rw [he, Redirect_Code urlParse response request dest 302 hw]

/-- C16 (amended) at the inputs of the tests: the request for `/urlshort` is
answered with status 302 and the mapped URL as `Location`; a relative mapped
URL with a query is made absolute, cleaned and keeps its trailing slash; the
request for `/missing` is answered by the fallback, with status 200 and the
body `Hello World`. -/
theorem MapHandler_redirects_with_location_witness :
    ((MapHandler Request.Path (Redirect redirectParse) (buildMap testMappings) helloFallback
        newRecorder ⟨"GET", "/urlshort"⟩).Header "Location" =
      some "https://github.com/gophercises/urlshort") ∧
    ((MapHandler Request.Path (Redirect redirectParse) (buildMap testMappings) helloFallback
        newRecorder ⟨"GET", "/urlshort"⟩).Code = 302) ∧
    ((MapHandler Request.Path (Redirect redirectParse) (buildMap [⟨"/dir/page", "../x/?q=1"⟩])
        helloFallback newRecorder ⟨"GET", "/dir/page"⟩).Header "Location" =
      some (hexEscapeNonASCII (redirectTarget redirectParse "/dir/page" "../x/?q=1")) ∧
      hexEscapeNonASCII (redirectTarget redirectParse "/dir/page" "../x/?q=1") = "/x/?q=1") ∧
    (MapHandler Request.Path (Redirect redirectParse) (buildMap testMappings) helloFallback
        newRecorder ⟨"GET", "/missing"⟩ = helloFallback newRecorder ⟨"GET", "/missing"⟩ ∧
      (helloFallback newRecorder ⟨"GET", "/missing"⟩).Code = 200 ∧
      (helloFallback newRecorder ⟨"GET", "/missing"⟩).Body = "Hello World") :=
  ⟨((MapHandler_redirects_with_location redirectParse (buildMap testMappings) helloFallback
      newRecorder ⟨"GET", "/urlshort"⟩).1 "https://github.com/gophercises/urlshort"
      (by decide)).2.1 (by decide) (by decide),
   ((MapHandler_redirects_with_location redirectParse (buildMap testMappings) helloFallback
      newRecorder ⟨"GET", "/urlshort"⟩).1 "https://github.com/gophercises/urlshort"
      (by decide)).2.2.1 rfl,
   ⟨((MapHandler_redirects_with_location redirectParse (buildMap [⟨"/dir/page", "../x/?q=1"⟩])
      helloFallback newRecorder ⟨"GET", "/dir/page"⟩).1 "../x/?q=1" (by decide)).1,
    by decide⟩,
   ⟨(MapHandler_redirects_with_location redirectParse (buildMap testMappings) helloFallback
      newRecorder ⟨"GET", "/missing"⟩).2 (by decide),
    by decide, by decide⟩⟩

/-- C17: the keys of the map returned by `buildMap` are exactly the paths that
occur in the list; each path is mapped to the URL of the last mapping of the
list with that path; and for a list with pairwise distinct paths the entries of
the map are exactly the `(path, url)` pairs of the list. -/
theorem buildMap_indexed_by_path (l : List pathMapping) :
    (∀ k, buildMap l k ≠ none ↔ ∃ m ∈ l, m.Path = k) ∧
    (∀ pre m post, l = pre ++ m :: post → (∀ m2 ∈ post, m2.Path ≠ m.Path) →
      buildMap l m.Path = some m.URL) ∧
    ((l.map (fun m => m.Path)).Nodup →
      ∀ k v, buildMap l k = some v ↔ (⟨k, v⟩ : pathMapping) ∈ l) := by
  have hlast : ∀ pre m post, l = pre ++ m :: post → (∀ m2 ∈ post, m2.Path ≠ m.Path) →
      buildMap l m.Path = some m.URL := by
    intro pre m post hl hpost
    rw [hl]
    exact buildMapLoop_last _ pre post m hpost
  have hkeys : ∀ k, buildMap l k ≠ none ↔ ∃ m ∈ l, m.Path = k := by
    intro k
    constructor
    · intro h
      by_contra hno
      apply h
      have : ∀ m ∈ l, m.Path ≠ k := fun m hm hk => hno ⟨m, hm, hk⟩
      exact buildMapLoop_other _ l k this
    · intro h
      obtain ⟨pre, m, post, hl, hm, hpost⟩ := exists_last_mapping l k h
      have := hlast pre m post hl (by rw [hm]; exact hpost)
      rw [hm] at this
      rw [this]
      simp
  refine ⟨hkeys, hlast, ?_⟩
  intro hnd k v
  constructor
  · intro h
    have hk : ∃ m ∈ l, m.Path = k := (hkeys k).1 (by rw [h]; simp)
    obtain ⟨pre, m, post, hl, hm, hpost⟩ := exists_last_mapping l k hk
    have := hlast pre m post hl (by rw [hm]; exact hpost)
    rw [hm, h] at this
    simp only [Option.some.injEq] at this
    have hmem : m ∈ l := by rw [hl]; simp
    have hmeq : m = ⟨k, v⟩ := by
      cases m
      simp only [pathMapping.mk.injEq] at hm this ⊢
      exact ⟨hm, this.symm⟩
    rw [← hmeq]
    exact hmem
  · intro h
    obtain ⟨pre, post, hl⟩ := List.append_of_mem h
    apply hlast pre ⟨k, v⟩ post hl
    intro m2 hm2 hk2
    rw [hl, List.map_append, List.map_cons] at hnd
    have h1 := (List.nodup_append.1 hnd).2.1
    have h2 := (List.nodup_cons.1 h1).1
    apply h2
    simp only [List.mem_map]
    exact ⟨m2, hm2, hk2⟩

/-- C17 at concrete inputs: the mappings of the test `TestBuildMapReturnsMapIndexedByPath`,
whose paths are distinct, and mappings with a repeated path, where the last
mapping wins. -/
theorem buildMap_indexed_by_path_witness :
    ((testMappings.map (fun m => m.Path)).Nodup ∧
      (buildMap testMappings "/urlshort" = some "https://github.com/gophercises/urlshort" ↔
        (⟨"/urlshort", "https://github.com/gophercises/urlshort"⟩ : pathMapping)
          ∈ testMappings)) ∧
    buildMap repeatedMappings "/a" = some "http://three" ∧
    buildMap repeatedMappings "/c" = none :=
  ⟨⟨by decide,
      (buildMap_indexed_by_path testMappings).2.2 (by decide) "/urlshort"
        "https://github.com/gophercises/urlshort"⟩,
    (buildMap_indexed_by_path repeatedMappings).2.1 [⟨"/a", "http://one"⟩, ⟨"/b", "http://two"⟩]
      ⟨"/a", "http://three"⟩ [] rfl (by decide),
    by decide⟩

end Urlshort

/-! ## The claims about the expansion pipeline and the whole crawl -/

namespace Sitemap

section Crawl

variable {α : Type} {ε : Type} [DecidableEq α]

/-- A property that holds of the queue and of the calls logged so far, and that
passes from a URL to its children, holds of every logged call. -/
theorem bfsLoopLog_calls_inv (expandFn : α → List α × Option ε) (P : α → Prop)
    (hP : ∀ x c, P x → c ∈ (expandFn x).1 → P c) :
    ∀ (fuel : Nat) (queue visited calls : List α), (∀ x ∈ queue, P x) → (∀ x ∈ calls, P x) →
      ∀ x ∈ (bfsLoopLog expandFn fuel queue visited calls).2, P x := by
  intro fuel
  induction fuel with
  | zero =>
    intro queue visited calls _ hc x hx
    cases queue with
    | nil => exact hc x (by simpa [bfsLoopLog] using hx)
    | cons a q => exact hc x (by simpa [bfsLoopLog] using hx)
  | succ n ih =>
    intro queue visited calls hq hc x hx
    cases queue with
    | nil => exact hc x (by simpa [bfsLoopLog] using hx)
    | cons node q =>
      have hnode : P node := hq node (by simp)
      have hcalls : ∀ y ∈ calls ++ [node], P y := by
        intro y hy
        rcases List.mem_append.1 hy with hy | hy
        · exact hc y hy
        · simp only [List.mem_singleton] at hy
          rw [hy]
          exact hnode
      rcases hexp : expandFn node with ⟨children, _ | err⟩
      · rw [bfsLoopLog, hexp] at hx
        refine ih _ _ _ ?_ hcalls x hx
        apply enqueueChildren_induct (fun q2 => ∀ y ∈ q2, P y) visited children q
        · intro y hy
          exact hq y (by simp [hy])
        · intro q2 c hq2 hcmem _ _ y hy
          rcases List.mem_append.1 hy with hy | hy
          · exact hq2 y hy
          · simp only [List.mem_singleton] at hy
            rw [hy]
            exact hP node c hnode (by rw [hexp]; exact hcmem)
      · rw [bfsLoopLog, hexp] at hx
        exact hcalls x hx

/-- A property of the root that every child of any URL has holds of every
reachable URL. -/
theorem reachable_of_children (expandFn : α → List α × Option ε) (root : α) (P : α → Prop)
    (hroot : P root) (hP : ∀ x c, c ∈ (expandFn x).1 → P c) (u : α)
    (h : Reachable expandFn root u) : P u := by
  induction h with
  | refl => exact hroot
  | tail _ hstep _ => exact hP _ _ hstep

end Crawl

/-- The filter loop appends the accepted URLs to its accumulator. -/
theorem filterLinks_eq (urlParse : String → Option URL) (urlString : URL → String)
    (domain : URL) (links : List Link.Link) (acc : List URL) :
    filterLinks urlParse urlString domain acc links =
      acc ++ acceptedURLs urlParse urlString domain links := by
  induction links generalizing acc with
  | nil => simp [filterLinks, acceptedURLs]
  | cons lnk rest ih =>
    rw [filterLinks]
    split
    · rename_i u hu
      rw [ih]
      simp [acceptedURLs, List.filterMap_cons, hu]
    · rename_i hno
      rw [ih]
      have : (match filterLink urlParse urlString lnk domain with
          | (some u, true) => some u
          | _ => none) = none := by
        split
        · rename_i u hu
          exact absurd hu (hno u)
        · rfl
      simp [acceptedURLs, List.filterMap_cons, this]

/-- The accepted URLs are the URLs with which `filterLink` answers `true` for a
link of the list. -/
theorem mem_acceptedURLs (urlParse : String → Option URL) (urlString : URL → String)
    (domain : URL) (links : List Link.Link) (u : URL) :
    u ∈ acceptedURLs urlParse urlString domain links ↔
      ∃ lnk ∈ links, filterLink urlParse urlString lnk domain = (some u, true) := by
  simp only [acceptedURLs, List.mem_filterMap]
  constructor
  · rintro ⟨lnk, hl, h⟩
    refine ⟨lnk, hl, ?_⟩
    split at h
    · rename_i w hw
      simp only [Option.some.injEq] at h
      rw [hw, h]
    · simp at h
  · rintro ⟨lnk, hl, h⟩
    exact ⟨lnk, hl, by rw [h]⟩

/-- Every URL that the expansion pipeline returns has the host of the base
domain and a scheme that begins with `http`. -/
theorem getAndFilter_children {ρ ε : Type} (httpGet : String → Except ε ρ)
    (htmlParse : ρ → Except ε Link.Node) (errorsWrap : ε → String → ε)
    (urlParse : String → Option URL) (urlString : URL → String) (domain node c : URL)
    (hc : c ∈ (getAndFilter httpGet htmlParse errorsWrap urlParse urlString domain node).1) :
    c.Host = domain.Host ∧ hasPrefix c.Scheme "http" = true := by
  unfold getAndFilter at hc
  split at hc
  · simp at hc
  · split at hc
    · simp at hc
    · rename_i links _
      simp only [filterLinks_eq, List.nil_append] at hc
      obtain ⟨lnk, _, hacc⟩ := (mem_acceptedURLs urlParse urlString domain links c).1 hc
      rw [filterLink_eq_acceptResolved] at hacc
      have := (acceptResolved_eq_some domain _ c).1 hacc
      exact ⟨this.2.2, this.2.1⟩

/-- C12: when the fetch and the HTML parse succeed, the function returned by
`getAndFilter` yields without error exactly the URLs that `filterLink` accepts
for the extracted links, in extraction order, one for every accepted link,
whatever links are rejected; when the fetch fails, or when `link.Parse` fails,
that error is returned unchanged with a `nil` list. -/
theorem getAndFilter_keeps_accepted_links {ρ ε : Type} (httpGet : String → Except ε ρ)
    (htmlParse : ρ → Except ε Link.Node) (errorsWrap : ε → String → ε)
    (urlParse : String → Option URL) (urlString : URL → String) (domain node : URL) :
    (∀ body doc, httpGet (urlString node) = .ok body → htmlParse body = .ok doc →
      getAndFilter httpGet htmlParse errorsWrap urlParse urlString domain node =
        ((Link.findLinks doc).filterMap (fun lnk =>
          match filterLink urlParse urlString lnk domain with
          | (some u, true) => some u
          | _ => none), none)) ∧
    (∀ err, httpGet (urlString node) = .error err →
      getAndFilter httpGet htmlParse errorsWrap urlParse urlString domain node =
        ([], some err)) ∧
    (∀ body links err, httpGet (urlString node) = .ok body →
      Link.Parse htmlParse errorsWrap body = (links, some err) →
      getAndFilter httpGet htmlParse errorsWrap urlParse urlString domain node =
        ([], some err)) ∧
    (∀ body err, httpGet (urlString node) = .ok body → htmlParse body = .error err →
      getAndFilter httpGet htmlParse errorsWrap urlParse urlString domain node =
        ([], some (errorsWrap err "Unable to parse HTML"))) := by
  refine ⟨?_, ?_, ?_, ?_⟩
  · intro body doc hget hparse
    simp [getAndFilter, hget, Link.Parse, hparse, filterLinks_eq, acceptedURLs]
  · intro err hget
    simp [getAndFilter, hget]
  · intro body links err hget hparse
    simp [getAndFilter, hget, hparse]
  · intro body err hget hparse
    simp [getAndFilter, hget, Link.Parse, hparse]

/-- C12 at concrete inputs: a page with the anchor `/b` twice and an unparsable
href between them expands to `http://ex.com/b` twice; a failed fetch and a
failed parse give back their error with an empty list. -/
theorem getAndFilter_keeps_accepted_links_witness :
    (getAndFilter repeatedGet treeParse wrapCode scenarioParse sampleString excom excom =
      ([mkURL "http" "ex.com" "/b", mkURL "http" "ex.com" "/b"], none)) ∧
    (getAndFilter repeatedGet treeParse wrapCode scenarioParse sampleString excom
      (mkURL "http" "ex.com" "/b") = ([], some 404)) ∧
    (getAndFilter repeatedGet failingParse wrapCode scenarioParse sampleString excom excom =
      ([], some 1005)) :=
  ⟨((getAndFilter_keeps_accepted_links repeatedGet treeParse wrapCode scenarioParse sampleString
      excom excom).1 (pageWith ["/b", "%zz", "/b"]) (pageWith ["/b", "%zz", "/b"])
      (by rfl) rfl).trans (by decide),
   (getAndFilter_keeps_accepted_links repeatedGet treeParse wrapCode scenarioParse sampleString
      excom (mkURL "http" "ex.com" "/b")).2.1 404 (by rfl),
   ((getAndFilter_keeps_accepted_links repeatedGet failingParse wrapCode scenarioParse
      sampleString excom excom).2.2.2 (pageWith ["/b", "%zz", "/b"]) 5 (by rfl) rfl).trans
      (by decide)⟩

/-- C11: every URL of a list returned by `bfs(domain, getAndFilter(domain))` has
the host of the base domain, and every URL of it other than the root has a
scheme that begins with `http`; every URL handed to the expansion function,
that is every URL fetched, has the host of the base domain; so a URL with
another host is neither in the result nor fetched. -/
theorem crawl_stays_on_host {ρ ε : Type} (httpGet : String → Except ε ρ)
    (htmlParse : ρ → Except ε Link.Node) (errorsWrap : ε → String → ε)
    (urlParse : String → Option URL) (urlString : URL → String) (domain : URL) (fuel : Nat) :
    (∀ l, bfs fuel domain
        (getAndFilter httpGet htmlParse errorsWrap urlParse urlString domain) =
          some (some l, none) →
      ∀ u ∈ l, u.Host = domain.Host ∧ (u ≠ domain → hasPrefix u.Scheme "http" = true)) ∧
    (∀ u ∈ (bfsLog fuel domain
        (getAndFilter httpGet htmlParse errorsWrap urlParse urlString domain)).2,
      u.Host = domain.Host) ∧
    (∀ u : URL, u.Host ≠ domain.Host →
      (∀ l, bfs fuel domain
          (getAndFilter httpGet htmlParse errorsWrap urlParse urlString domain) =
            some (some l, none) → u ∉ l) ∧
      u ∉ (bfsLog fuel domain
        (getAndFilter httpGet htmlParse errorsWrap urlParse urlString domain)).2) := by
  have hres : ∀ l, bfs fuel domain
        (getAndFilter httpGet htmlParse errorsWrap urlParse urlString domain) =
          some (some l, none) →
      ∀ u ∈ l, u.Host = domain.Host ∧ (u ≠ domain → hasPrefix u.Scheme "http" = true) := by
    intro l h u hu
    have hr := (bfs_searchInv domain _ fuel l none h).2.1 u (by simpa using hu)
    refine reachable_of_children _ domain
      (fun u => u.Host = domain.Host ∧ (u ≠ domain → hasPrefix u.Scheme "http" = true))
      ⟨rfl, fun hne => absurd rfl hne⟩ ?_ u hr
    intro x c hc
    have := getAndFilter_children httpGet htmlParse errorsWrap urlParse urlString domain x c hc
    exact ⟨this.1, fun _ => this.2⟩
  have hlog : ∀ u ∈ (bfsLog fuel domain
        (getAndFilter httpGet htmlParse errorsWrap urlParse urlString domain)).2,
      u.Host = domain.Host := by
    unfold bfsLog
    apply bfsLoopLog_calls_inv
      (getAndFilter httpGet htmlParse errorsWrap urlParse urlString domain)
      (fun u : URL => u.Host = domain.Host)
    · intro x c _ hc
      exact (getAndFilter_children httpGet htmlParse errorsWrap urlParse urlString domain
        x c hc).1
    · intro x hx
      simp only [List.mem_singleton] at hx
      rw [hx]
    · intro x hx
      simp at hx
  refine ⟨hres, hlog, ?_⟩
  intro u hu
  exact ⟨fun l h hmem => hu (hres l h u hmem).1, fun hmem => hu (hlog u hmem)⟩

/-- C11 at a concrete input: in the crawl of the site `cyclicGet` from
`http://ex.com`, whose root page links to `http://other.com/x`, that URL is
neither listed nor fetched. -/
theorem crawl_stays_on_host_witness :
    bfs 5 excom (getAndFilter cyclicGet treeParse wrapCode scenarioParse sampleString excom) =
      some (some [excom, mkURL "http" "ex.com" "/b"], none) ∧
    (mkURL "http" "other.com" "/x").Host ≠ excom.Host ∧
    mkURL "http" "other.com" "/x" ∉ [excom, mkURL "http" "ex.com" "/b"] ∧
    mkURL "http" "other.com" "/x" ∉
      (bfsLog 5 excom
        (getAndFilter cyclicGet treeParse wrapCode scenarioParse sampleString excom)).2 :=
  ⟨by decide, by decide,
   ((crawl_stays_on_host cyclicGet treeParse wrapCode scenarioParse sampleString excom 5).2.2
      (mkURL "http" "other.com" "/x") (by decide)).1 _ (by decide),
   ((crawl_stays_on_host cyclicGet treeParse wrapCode scenarioParse sampleString excom 5).2.2
      (mkURL "http" "other.com" "/x") (by decide)).2⟩

/-- C13 (the claim at its own input): in the scenario as worded, the anchor
`/a` of the page `/b` resolves to `http://ex.com/a`, which is not the root.
When `http://ex.com/a` serves a page without links, the crawl returns the
three URLs `http://ex.com`, `http://ex.com/b`, `http://ex.com/a`; when its
fetch fails, the crawl returns that error and no list.  In neither case is
the result the list of `http://ex.com` and `http://ex.com/b`. -/
theorem scenario_visits_page_a :
    (filterLink scenarioParse sampleString ⟨"/a", ""⟩ excom =
      (some (mkURL "http" "ex.com" "/a"), true)) ∧
    mkURL "http" "ex.com" "/a" ≠ excom ∧
    (bfs 5 excom
        (getAndFilter (scenarioGet (.ok (pageWith []))) treeParse wrapCode scenarioParse
          sampleString excom) =
      some (some [excom, mkURL "http" "ex.com" "/b", mkURL "http" "ex.com" "/a"], none)) ∧
    (bfs 5 excom
        (getAndFilter (scenarioGet (.error 404)) treeParse wrapCode scenarioParse
          sampleString excom) =
      some (none, some 404)) ∧
    (bfs 5 excom
        (getAndFilter (scenarioGet (.ok (pageWith []))) treeParse wrapCode scenarioParse
          sampleString excom) ≠
      some (some [excom, mkURL "http" "ex.com" "/b"], none)) ∧
    (bfs 5 excom
        (getAndFilter (scenarioGet (.error 404)) treeParse wrapCode scenarioParse
          sampleString excom) ≠
      some (some [excom, mkURL "http" "ex.com" "/b"], none)) := by
  refine ⟨by decide, by decide, by decide, by decide, by decide, by decide⟩

/-- C13 (amended): with root `http://ex.com`, a root page whose anchors are `/b`
and `http://other.com/x`, and a page `/b` whose anchor is `http://ex.com`, which
does resolve back to the root, the crawl returns exactly the root and
`http://ex.com/b`, for every fuel of at least two iterations; these two are the
URLs fetched, and `http://other.com/x` is not among them. -/
theorem scenario_cycle_back_to_root {ρ ε : Type} (httpGet : String → Except ε ρ)
    (htmlParse : ρ → Except ε Link.Node) (errorsWrap : ε → String → ε)
    (urlParse : String → Option URL) (urlString : URL → String)
    (root b rel other : URL) (body0 body1 : ρ) (doc0 doc1 : Link.Node) (t1 t2 t3 : String)
    (hroot : urlString root = "http://ex.com") (hrs : root.Scheme = "http")
    (hrh : root.Host = "ex.com")
    (hb : urlString b = "http://ex.com/b") (hbs : b.Scheme = "http") (hbh : b.Host = "ex.com")
    (hget0 : httpGet "http://ex.com" = .ok body0) (hdoc0 : htmlParse body0 = .ok doc0)
    (hlinks0 : Link.findLinks doc0 = [⟨"/b", t1⟩, ⟨"http://other.com/x", t2⟩])
    (hget1 : httpGet "http://ex.com/b" = .ok body1) (hdoc1 : htmlParse body1 = .ok doc1)
    (hlinks1 : Link.findLinks doc1 = [⟨"http://ex.com", t3⟩])
    (hp1 : urlParse "/b" = some rel) (hrel : rel.Host = "")
    (hp2 : urlParse "http://ex.com/b" = some b)
    (hp3 : urlParse "http://other.com/x" = some other) (hoh : other.Host = "other.com")
    (hp4 : urlParse "http://ex.com" = some root) (k : Nat) :
    bfs (2 + k) root (getAndFilter httpGet htmlParse errorsWrap urlParse urlString root) =
      some (some [root, b], none) ∧
    (bfsLog (2 + k) root
      (getAndFilter httpGet htmlParse errorsWrap urlParse urlString root)).2 = [root, b] ∧
    other ∉ [root, b] := by
  have hne : b ≠ root := by
    intro e
    rw [e, hroot] at hb
    exact absurd hb (by decide)
  have hne2 : ¬ root = b := fun e => hne e.symm
  have hcat : ("http://ex.com" ++ "/b" : String) = "http://ex.com/b" := by decide
  have hpre : hasPrefix "http" "http" = true := by decide
  have hoth : ¬ ("other.com" = "ex.com") := by decide
  have hexc : ¬ ("ex.com" = "") := by decide
  have hothe : ¬ ("other.com" = "") := by decide
  have hf1 : filterLink urlParse urlString ⟨"/b", t1⟩ root = (some b, true) := by
    simp [filterLink, hp1, hrel, hroot, hcat, hp2, hbs, hbh, hrh, hpre]
  have hf2 : filterLink urlParse urlString ⟨"http://other.com/x", t2⟩ root = (none, false) := by
    simp [filterLink, hp3, hoh, hrh, hoth, hothe]
  have hf3 : filterLink urlParse urlString ⟨"http://ex.com", t3⟩ root = (some root, true) := by
    simp [filterLink, hp4, hrh, hrs, hexc, hpre]
  have hE0 : getAndFilter httpGet htmlParse errorsWrap urlParse urlString root root =
      ([b], none) := by
    simp [getAndFilter, hroot, hget0, Link.Parse, hdoc0, hlinks0, filterLinks, hf1, hf2]
  have hE1 : getAndFilter httpGet htmlParse errorsWrap urlParse urlString root b =
      ([root], none) := by
    simp [getAndFilter, hb, hget1, Link.Parse, hdoc1, hlinks1, filterLinks, hf3]
  have e : 2 + k = (k + 1) + 1 := by omega
  refine ⟨?_, ?_, ?_⟩
  · rw [e]
    simp [bfs, bfsLoop, hE0, hE1, enqueueChildren, contains, hne, hne2]
  · rw [e]
    simp [bfsLog, bfsLoopLog, hE0, hE1, enqueueChildren, contains, hne, hne2]
  · intro hmem
    simp only [List.mem_cons, List.mem_singleton, List.not_mem_nil, or_false] at hmem
    rcases hmem with h | h
    · rw [h, hrh] at hoh
      exact absurd hoh (by decide)
    · rw [h, hbh] at hoh
      exact absurd hoh (by decide)

/-- C13 (amended) at the concrete site `cyclicGet`. -/
theorem scenario_cycle_back_to_root_witness :
    bfs (2 + 0) excom (getAndFilter cyclicGet treeParse wrapCode scenarioParse sampleString excom) =
      some (some [excom, mkURL "http" "ex.com" "/b"], none) ∧
    (bfsLog (2 + 0) excom
      (getAndFilter cyclicGet treeParse wrapCode scenarioParse sampleString excom)).2 =
        [excom, mkURL "http" "ex.com" "/b"] ∧
    mkURL "http" "other.com" "/x" ∉ [excom, mkURL "http" "ex.com" "/b"] :=
  scenario_cycle_back_to_root cyclicGet treeParse wrapCode scenarioParse sampleString
    excom (mkURL "http" "ex.com" "/b") (mkURL "" "" "/b") (mkURL "http" "other.com" "/x")
    (pageWith ["/b", "http://other.com/x"]) (pageWith ["http://ex.com"])
    (pageWith ["/b", "http://other.com/x"]) (pageWith ["http://ex.com"]) "" "" ""
    (by decide) (by decide) (by decide) (by decide) (by decide) (by decide)
    (by rfl) rfl (by decide) (by rfl) rfl (by decide)
    (by decide) (by decide) (by decide) (by decide) (by decide) (by decide) 0

end Sitemap

/-! ## The order of the first children and the self-links -/

namespace Sitemap

section Order

variable {α : Type} {ε : Type} [DecidableEq α]

theorem mem_keepFirst (l : List α) (x : α) : x ∈ keepFirst l ↔ x ∈ l := by
  induction l with
  | nil => simp [keepFirst]
  | cons a rest ih =>
    by_cases hx : x = a
    · simp [keepFirst, hx]
    · simp [keepFirst, hx, ih]

theorem keepFirst_nodup (l : List α) : (keepFirst l).Nodup := by
  induction l with
  | nil => simp [keepFirst]
  | cons a rest ih =>
    rw [keepFirst, List.nodup_cons]
    refine ⟨?_, ih.filter _⟩
    simp [List.mem_filter]

theorem keepFirst_filter (p : α → Bool) (l : List α) :
    keepFirst (l.filter p) = (keepFirst l).filter p := by
  induction l with
  | nil => simp [keepFirst]
  | cons a rest ih =>
    by_cases hp : p a = true
    · rw [List.filter_cons_of_pos hp, keepFirst, keepFirst, List.filter_cons_of_pos hp, ih,
        List.filter_filter, List.filter_filter]
      congr 1
      apply List.filter_congr
      intro x _
      exact Bool.and_comm _ _
    · rw [List.filter_cons_of_neg hp, keepFirst, List.filter_cons_of_neg hp, ih,
        List.filter_filter]
      apply List.filter_congr
      intro x _
      by_cases hx : x = a
      · subst hx
        simp [hp]
      · simp [hx]

theorem count_keepFirst (l : List α) (x : α) :
    (keepFirst l).count x = if x ∈ l then 1 else 0 := by
  by_cases hx : x ∈ l
  · rw [if_pos hx]
    exact List.count_eq_one_of_mem (keepFirst_nodup l) ((mem_keepFirst l x).2 hx)
  · rw [if_neg hx]
    exact List.count_eq_zero.2 (fun h => hx ((mem_keepFirst l x).1 h))

/-- The child loop in closed form: the queue followed by the children that are
in neither `visited` nor the queue, each at its first occurrence. -/
theorem enqueueChildren_eq (visited : List α) (children queue : List α) :
    enqueueChildren visited queue children =
      queue ++ keepFirst (children.filter (fun c => decide (c ∉ visited ∧ c ∉ queue))) := by
  induction children generalizing queue with
  | nil => simp [enqueueChildren, keepFirst]
  | cons c cs ih =>
    by_cases hc : c ∉ visited ∧ c ∉ queue
    · have e1 : contains visited c = false := by
        rw [← Bool.not_eq_true, contains_iff]; exact hc.1
      have e2 : contains queue c = false := by
        rw [← Bool.not_eq_true, contains_iff]; exact hc.2
      have hp : decide (c ∉ visited ∧ c ∉ queue) = true := by simpa using hc
      have hfc : List.filter (fun c => decide (c ∉ visited ∧ c ∉ queue)) (c :: cs) =
          c :: List.filter (fun c => decide (c ∉ visited ∧ c ∉ queue)) cs :=
        List.filter_cons_of_pos hp
      rw [enqueueChildren]
      simp only [e1, e2, Bool.not_false, Bool.and_self, if_true]
      rw [ih, hfc, keepFirst, ← keepFirst_filter, List.filter_filter,
        List.append_assoc, List.singleton_append]
      congr 3
      apply List.filter_congr
      intro x _
      by_cases hx : x = c
      · subst hx
        simp
      · simp [hx]
    · have hp : ¬ (decide (c ∉ visited ∧ c ∉ queue) = true) := by simpa using hc
      have hcond : (!contains visited c && !contains queue c) = false := by
        rw [← Bool.not_eq_true]
        intro h
        simp only [Bool.and_eq_true, Bool.not_eq_true', ← Bool.not_eq_true, contains_iff] at h
        exact hc h
      have hfc : List.filter (fun c => decide (c ∉ visited ∧ c ∉ queue)) (c :: cs) =
          List.filter (fun c => decide (c ∉ visited ∧ c ∉ queue)) cs :=
        List.filter_cons_of_neg hp
      rw [enqueueChildren]
      simp only [hcond, Bool.false_eq_true, if_false]
      rw [ih, hfc]

/-- The child loop adds a URL once when it is a child in neither list, and
leaves its number of occurrences unchanged otherwise. -/
theorem count_enqueueChildren (visited children queue : List α) (x : α) :
    (enqueueChildren visited queue children).count x =
      queue.count x + if x ∈ children ∧ x ∉ visited ∧ x ∉ queue then 1 else 0 := by
  rw [enqueueChildren_eq, List.count_append, count_keepFirst]
  congr 1
  simp only [List.mem_filter, decide_eq_true_eq]

/-- The search invariant is kept by an iteration of the loop. -/
theorem searchInv_step (root : α) (expandFn : α → List α × Option ε)
    (visited : List α) (node : α) (queue children : List α)
    (hinv : SearchInv expandFn root visited (node :: queue))
    (hexp : expandFn node = (children, none)) :
    SearchInv expandFn root (visited ++ [node]) (enqueueChildren visited queue children) := by
  obtain ⟨h1, h2, h3⟩ := hinv
  obtain ⟨t, ht⟩ := enqueueChildren_extends visited children queue
  have hsub : ∀ x, x ∈ visited ++ node :: queue →
      x ∈ (visited ++ [node]) ++ enqueueChildren visited queue children := by
    intro x hx
    rw [← ht]
    simp only [List.mem_append, List.mem_cons, List.mem_singleton] at hx ⊢
    tauto
  refine ⟨hsub root h1, ?_, ?_⟩
  · have hnode : Reachable expandFn root node := h2 node (by simp)
    have hq : ∀ u ∈ enqueueChildren visited queue children, Reachable expandFn root u := by
      apply enqueueChildren_induct
        (fun q2 => ∀ u ∈ q2, Reachable expandFn root u) visited children queue
      · intro u hu
        exact h2 u (by simp [hu])
      · intro q2 c hq2 hc _ _ u hu
        rcases List.mem_append.1 hu with hu | hu
        · exact hq2 u hu
        · simp only [List.mem_singleton] at hu
          rw [hu]
          exact Relation.ReflTransGen.tail hnode (by simp [Expands, hexp, hc])
    intro u hu
    rcases List.mem_append.1 hu with hu1 | hu2
    · exact h2 u (by
        simp only [List.mem_append, List.mem_singleton] at hu1
        simp only [List.mem_append, List.mem_cons]
        tauto)
    · exact hq u hu2
  · intro p hp c hc
    simp only [List.mem_append, List.mem_singleton] at hp
    rcases hp with hp | rfl
    · exact hsub c (h3 p hp c hc)
    · have hc2 : c ∈ children := by simpa [Expands, hexp] using hc
      rcases enqueueChildren_covers visited children queue c hc2 with h | h
      · simp [h]
      · simp [h]

/-- The self-link invariant is kept by an iteration of the loop. -/
theorem twiceInv_step (expandFn : α → List α × Option ε)
    (visited : List α) (node : α) (queue children : List α)
    (hinv : TwiceInv expandFn visited (node :: queue))
    (hexp : expandFn node = (children, none)) :
    TwiceInv expandFn (visited ++ [node]) (enqueueChildren visited queue children) := by
  obtain ⟨ha, hb⟩ := hinv
  refine ⟨?_, ?_⟩
  · intro x hx
    rw [List.count_append, List.count_append, count_enqueueChildren]
    by_cases hxv : x ∈ visited
    · have := ha x hxv
      rw [List.count_append, List.count_cons] at this
      rw [← this, List.count_cons, List.count_nil]
      have hz : (if x ∈ children ∧ x ∉ visited ∧ x ∉ queue then 1 else 0) = 0 := by
        rw [if_neg]
        intro h
        exact h.2.1 hxv
      rw [hz]
      omega
    · have hxn : x = node := by
        simp only [List.mem_append, List.mem_singleton] at hx
        tauto
      subst hxn
      have h1 := hb x hxv
      rw [List.count_cons] at h1
      simp only [beq_self_eq_true, if_true] at h1
      have hq0 : queue.count x = 0 := by omega
      have hxq : x ∉ queue := List.count_eq_zero.1 hq0
      have hv0 : visited.count x = 0 := List.count_eq_zero.2 hxv
      rw [hv0, hq0, List.count_cons, List.count_nil]
      simp only [beq_self_eq_true, if_true, hexp]
      by_cases hs : x ∈ children
      · rw [if_pos ⟨hs, hxv, hxq⟩, if_pos hs]
      · rw [if_neg (fun h => hs h.1), if_neg hs]
  · intro x hx
    rw [count_enqueueChildren]
    have hxv : x ∉ visited := fun h => hx (List.mem_append_left _ h)
    have hxn : ¬ node = x := fun h => hx (by simp [h])
    have h1 := hb x hxv
    rw [List.count_cons] at h1
    by_cases hc : x ∈ children ∧ x ∉ visited ∧ x ∉ queue
    · rw [if_pos hc, List.count_eq_zero.2 hc.2.2]
    · rw [if_neg hc]
      omega

/-- Both invariants hold at every state that the loop passes through. -/
theorem loopState_inv (root : α) (expandFn : α → List α × Option ε)
    (queue visited : List α) (h : LoopState expandFn root queue visited) :
    SearchInv expandFn root visited queue ∧ TwiceInv expandFn visited queue := by
  induction h with
  | init =>
    refine ⟨⟨by simp, ?_, ?_⟩, ?_, ?_⟩
    · intro u hu
      simp only [List.nil_append, List.mem_singleton] at hu
      rw [hu]
      exact Relation.ReflTransGen.refl
    · intro p hp
      simp at hp
    · intro x hx
      simp at hx
    · intro x _
      rw [List.count_cons, List.count_nil]
      split <;> omega
  | step _ hexp ih =>
    exact ⟨searchInv_step root expandFn _ _ _ _ ih.1 hexp,
      twiceInv_step expandFn _ _ _ _ ih.2 hexp⟩

/-- A returned list is the `visited` of a state that the loop passes through,
with an empty queue. -/
theorem bfs_loopState (root : α) (expandFn : α → List α × Option ε) (fuel : Nat)
    (l : List α) (e : Option ε) (h : bfs fuel root expandFn = some (some l, e)) :
    LoopState expandFn root [] l :=
  bfsLoop_invariant expandFn (fun v q => LoopState expandFn root q v)
    (fun _ _ _ _ hinv hexp => LoopState.step hinv hexp) fuel [root] [] l e LoopState.init h

/-- After the first iteration the search goes on from the root in `visited` and
the first occurrences of the children of the root in the queue. -/
theorem bfs_first_iteration (root : α) (expandFn : α → List α × Option ε) (fuel : Nat)
    (l : List α) (h : bfs fuel root expandFn = some (some l, none)) :
    ∃ n, bfsLoop expandFn n (keepFirst (expandFn root).1) [root] = some (some l, none) := by
  cases fuel with
  | zero => simp [bfs, bfsLoop] at h
  | succ n =>
    rcases hexp : expandFn root with ⟨children, _ | err⟩
    · refine ⟨n, ?_⟩
      have e : enqueueChildren [] [] children = keepFirst children := by
        rw [enqueueChildren_eq]
        simp
      simpa [bfs, bfsLoop, hexp, e] using h
    · simp [bfs, bfsLoop, hexp] at h

/-- C18: a list returned by `bfs` begins with the root, followed by the children
of the root in the order the expansion returned them, each kept at its first
occurrence only (a list without repetition that has the same elements as the
children), followed by a rest of which every URL is a child of a URL listed
after the root. -/
theorem bfs_root_then_first_children (root : α) (expandFn : α → List α × Option ε)
    (fuel : Nat) (l : List α) (h : bfs fuel root expandFn = some (some l, none)) :
    (∃ rest, l = root :: keepFirst (expandFn root).1 ++ rest ∧
      ∀ x ∈ rest, ∃ p ∈ keepFirst (expandFn root).1 ++ rest, x ∈ (expandFn p).1) ∧
    (keepFirst (expandFn root).1).Nodup ∧
    (∀ x, x ∈ keepFirst (expandFn root).1 ↔ x ∈ (expandFn root).1) := by
  refine ⟨?_, keepFirst_nodup _, mem_keepFirst _⟩
  obtain ⟨n, hn⟩ := bfs_first_iteration root expandFn fuel l h
  have key := bfsLoop_invariant_push expandFn
    (fun vis pend => vis ≠ [] ∧ ∃ rest,
      vis ++ pend = (root :: keepFirst (expandFn root).1) ++ rest ∧
      ∀ x ∈ rest, ∃ p ∈ (vis ++ pend).tail, x ∈ (expandFn p).1)
    ?_ ?_ n (keepFirst (expandFn root).1) [root] l none ?_ hn
  · obtain ⟨_, rest, hl, hrest⟩ := key
    rw [List.append_nil] at hl hrest
    refine ⟨rest, hl, ?_⟩
    intro x hx
    obtain ⟨p, hp, hpx⟩ := hrest x hx
    rw [hl] at hp
    exact ⟨p, by simpa using hp, hpx⟩
  · rintro vis node q c ⟨hne, rest, hl, hrest⟩ hc _ _
    have eL : vis ++ node :: (q ++ [c]) = (vis ++ node :: q) ++ [c] := by simp
    have hLne : vis ++ node :: q ≠ [] := by simp
    refine ⟨hne, rest ++ [c], by rw [eL, hl, List.append_assoc], ?_⟩
    intro x hx
    rw [eL, List.tail_append_of_ne_nil hLne]
    rcases List.mem_append.1 hx with hx | hx
    · obtain ⟨p, hp, hpx⟩ := hrest x hx
      exact ⟨p, List.mem_append_left _ hp, hpx⟩
    · simp only [List.mem_singleton] at hx
      refine ⟨node, List.mem_append_left _ ?_, by rw [hx]; exact hc⟩
      rw [List.tail_append_of_ne_nil hne]
      simp
  · rintro vis node q ⟨_, rest, hl, hrest⟩ _
    have eL : (vis ++ [node]) ++ q = vis ++ node :: q := by simp
    refine ⟨by simp, rest, by rw [eL, hl], ?_⟩
    intro x hx
    rw [eL]
    exact hrest x hx
  · exact ⟨by simp, [], by simp, by simp⟩

/-- C18 at a concrete input: the root `0` returns the children `1, 0, 1, 2`; the
crawl lists `0`, then `1, 0, 2`, then the rest `3`. -/
theorem bfs_root_then_first_children_witness :
    bfs 6 0 repeatExpand = some (some [0, 1, 0, 2, 3], none) ∧
    keepFirst (repeatExpand 0).1 = [1, 0, 2] ∧
    ((∃ rest, [0, 1, 0, 2, 3] = 0 :: keepFirst (repeatExpand 0).1 ++ rest ∧
      ∀ x ∈ rest, ∃ p ∈ keepFirst (repeatExpand 0).1 ++ rest, x ∈ (repeatExpand p).1) ∧
    (keepFirst (repeatExpand 0).1).Nodup ∧
    (∀ x, x ∈ keepFirst (repeatExpand 0).1 ↔ x ∈ (repeatExpand 0).1)) :=
  ⟨by decide, by decide,
    bfs_root_then_first_children 0 repeatExpand 6 [0, 1, 0, 2, 3] (by decide)⟩

/-- C19: in a list returned by `bfs` no URL occurs more than twice, and a listed
URL occurs twice exactly when its own expansion contains it; the expansions
made are the entries of the list, in order; when the loop takes from the queue
a URL that is already in `visited`, that URL links to itself, is not in the
queue any more and its expansion enqueues nothing; when it takes a URL that is
not in `visited`, the URL is enqueued once more if it links to itself and not
at all otherwise. -/
theorem bfs_self_link_twice (root : α) (expandFn : α → List α × Option ε)
    (fuel : Nat) (l : List α) (h : bfs fuel root expandFn = some (some l, none)) :
    (∀ x, l.count x ≤ 2) ∧
    (∀ x ∈ l, (l.count x = 2 ↔ x ∈ (expandFn x).1)) ∧
    (bfsLog fuel root expandFn).2 = l ∧
    LoopState expandFn root [] l ∧
    (∀ node queue visited, LoopState expandFn root (node :: queue) visited → node ∈ visited →
      node ∈ (expandFn node).1 ∧ node ∉ queue ∧ visited.count node = 1 ∧
      enqueueChildren visited queue (expandFn node).1 = queue) ∧
    (∀ node queue visited, LoopState expandFn root (node :: queue) visited → node ∉ visited →
      (enqueueChildren visited queue (expandFn node).1).count node =
        if node ∈ (expandFn node).1 then 1 else 0) := by
  have hstate := bfs_loopState root expandFn fuel l none h
  have htw := (loopState_inv root expandFn [] l hstate).2.1
  have hcount : ∀ x ∈ l, l.count x = if x ∈ (expandFn x).1 then 2 else 1 := by
    intro x hx
    simpa using htw x hx
  refine ⟨?_, ?_, ?_, hstate, ?_, ?_⟩
  · intro x
    by_cases hx : x ∈ l
    · rw [hcount x hx]
      split <;> omega
    · rw [List.count_eq_zero.2 hx]
      omega
  · intro x hx
    rw [hcount x hx]
    by_cases hs : x ∈ (expandFn x).1
    · simp [hs]
    · simp [hs]
  · obtain ⟨new, h1, _, h3⟩ := bfsLoopLog_spec expandFn fuel [root] [] []
    rw [bfs] at h
    rcases h3 with ⟨_, hb | hb⟩ | ⟨_, _, _, _, _, _, hr⟩
    · rw [hb] at h
      simp at h
    · rw [hb] at h
      simp only [List.nil_append, Option.some.injEq, Prod.mk.injEq, and_true] at h
      rw [bfsLog, h1]
      simpa using h
    · rw [hr] at h
      simp at h
  · intro node queue visited hst hv
    obtain ⟨⟨_, _, h3⟩, ha, _⟩ := loopState_inv root expandFn _ _ hst
    have hc := ha node hv
    rw [List.count_append, List.count_cons] at hc
    simp only [beq_self_eq_true, if_true] at hc
    have hv1 : 1 ≤ visited.count node := List.one_le_count_iff.2 hv
    have hself : node ∈ (expandFn node).1 := by
      by_contra hs
      rw [if_neg hs] at hc
      omega
    rw [if_pos hself] at hc
    have hq0 : queue.count node = 0 := by omega
    have hnq : node ∉ queue := List.count_eq_zero.1 hq0
    refine ⟨hself, hnq, by omega, ?_⟩
    rw [enqueueChildren_eq]
    have : List.filter (fun c => decide (c ∉ visited ∧ c ∉ queue)) (expandFn node).1 = [] := by
      rw [List.filter_eq_nil_iff]
      intro c hc2
      have hmem := h3 node hv c hc2
      simp only [List.mem_append, List.mem_cons] at hmem
      simp only [decide_eq_true_eq, not_and, not_not]
      intro hcv
      rcases hmem with hm | hm | hm
      · exact absurd hm hcv
      · rw [hm] at hcv
        exact absurd hv hcv
      · exact hm
    rw [this]
    simp [keepFirst]
  · intro node queue visited hst hv
    obtain ⟨_, _, hb⟩ := loopState_inv root expandFn _ _ hst
    have h1 := hb node hv
    rw [List.count_cons] at h1
    simp only [beq_self_eq_true, if_true] at h1
    have hq0 : queue.count node = 0 := by omega
    have hnq : node ∉ queue := List.count_eq_zero.1 hq0
    rw [count_enqueueChildren, hq0]
    by_cases hs : node ∈ (expandFn node).1
    · rw [if_pos ⟨hs, hv, hnq⟩, if_pos hs]
    · rw [if_neg (fun hh => hs hh.1), if_neg hs]

/-- C19 at a concrete input: the root `0` of `repeatExpand` links to itself and
is listed twice; `1` does not and is listed once. -/
theorem bfs_self_link_twice_witness :
    bfs 6 0 repeatExpand = some (some [0, 1, 0, 2, 3], none) ∧
    (([0, 1, 0, 2, 3] : List Nat).count 0 = 2 ↔ 0 ∈ (repeatExpand 0).1) ∧
    (([0, 1, 0, 2, 3] : List Nat).count 1 = 2 ↔ 1 ∈ (repeatExpand 1).1) ∧
    ([0, 1, 0, 2, 3] : List Nat).count 0 = 2 ∧ ([0, 1, 0, 2, 3] : List Nat).count 1 = 1 ∧
    (bfsLog 6 0 repeatExpand).2 = [0, 1, 0, 2, 3] :=
  ⟨by decide,
   (bfs_self_link_twice 0 repeatExpand 6 [0, 1, 0, 2, 3] (by decide)).2.1 0 (by decide),
   (bfs_self_link_twice 0 repeatExpand 6 [0, 1, 0, 2, 3] (by decide)).2.1 1 (by decide),
   by decide, by decide,
   (bfs_self_link_twice 0 repeatExpand 6 [0, 1, 0, 2, 3] (by decide)).2.2.1⟩

end Order

end Sitemap

/-! ## White-space normalised link texts -/

namespace Link

theorem join_data (ws : List (List Char)) :
    (strings_Join (ws.map String.mk) " ").data = joinWords ws := by
  induction ws with
  | nil => rfl
  | cons w rest ih =>
    cases rest with
    | nil => rfl
    | cons v rest2 =>
      simp only [List.map_cons, strings_Join, String.data_append, joinWords] at ih ⊢
      rw [ih]
      simp

theorem fieldsFrom_words : ∀ (s cur : List Char), (∀ c ∈ cur, isSpace c = false) →
    ∃ ws : List (List Char), (∀ w ∈ ws, IsWord w) ∧ fieldsFrom cur s = ws.map String.mk := by
  intro s
  induction s with
  | nil =>
    intro cur hcur
    by_cases h : cur = []
    · exact ⟨[], by simp, by simp [fieldsFrom, h]⟩
    · exact ⟨[cur], by simpa [IsWord, h] using hcur, by simp [fieldsFrom, h]⟩
  | cons c cs ih =>
    intro cur hcur
    by_cases hc : isSpace c = true
    · obtain ⟨ws, hws, hf⟩ := ih [] (by simp)
      by_cases h : cur = []
      · exact ⟨ws, hws, by simp [fieldsFrom, hc, h, hf]⟩
      · refine ⟨cur :: ws, ?_, by simp [fieldsFrom, hc, h, hf]⟩
        intro w hw
        rcases List.mem_cons.1 hw with rfl | hw
        · exact ⟨h, hcur⟩
        · exact hws w hw
    · have hc2 : isSpace c = false := by simpa using hc
      obtain ⟨ws, hws, hf⟩ := ih (cur ++ [c]) (by
        intro x hx
        rcases List.mem_append.1 hx with hx | hx
        · exact hcur x hx
        · simp only [List.mem_singleton] at hx
          rw [hx]; exact hc2)
      exact ⟨ws, hws, by simp [fieldsFrom, hc2, hf]⟩

theorem fieldsFrom_word (w : List Char) (hw : ∀ c ∈ w, isSpace c = false) :
    ∀ (cur rest : List Char), fieldsFrom cur (w ++ rest) = fieldsFrom (cur ++ w) rest := by
  induction w with
  | nil => intro cur rest; simp
  | cons c cs ih =>
    intro cur rest
    have hc : isSpace c = false := hw c (by simp)
    have := ih (fun x hx => hw x (by simp [hx])) (cur ++ [c]) rest
    rw [List.cons_append, fieldsFrom]
    simp only [hc, Bool.false_eq_true, if_false]
    rw [this]
    simp

theorem fieldsFrom_joinWords (ws : List (List Char)) (hws : ∀ w ∈ ws, IsWord w) :
    fieldsFrom [] (joinWords ws) = ws.map String.mk := by
  induction ws with
  | nil => simp [joinWords, fieldsFrom]
  | cons w rest ih =>
    have hw : IsWord w := hws w (by simp)
    cases rest with
    | nil =>
      have := fieldsFrom_word w hw.2 [] []
      simp only [List.append_nil, List.nil_append] at this
      simp [joinWords, this, fieldsFrom, hw.1]
    | cons v rest2 =>
      have ih2 := ih (fun x hx => hws x (by simp [hx]))
      have := fieldsFrom_word w hw.2 [] (' ' :: joinWords (v :: rest2))
      simp only [List.nil_append] at this
      have hsp : isSpace ' ' = true := by decide
      rw [joinWords, this, fieldsFrom]
      simp only [hsp, if_true, hw.1, if_false, ih2, List.map_cons]

/-- What white-space normalised text is, on the characters of a joined list of
words. -/
theorem joinWords_normal (ws : List (List Char)) (hws : ∀ w ∈ ws, IsWord w) :
    (∀ c ∈ (joinWords ws).head?, isSpace c = false) ∧
    (∀ c ∈ (joinWords ws).getLast?, isSpace c = false) ∧
    (∀ c ∈ joinWords ws, isSpace c = true → c = ' ') ∧
    List.Chain' (fun a b => ¬ (isSpace a = true ∧ isSpace b = true)) (joinWords ws) := by
  induction ws with
  | nil => simp [joinWords]
  | cons w rest ih =>
    have hw : IsWord w := hws w (by simp)
    have hchain : List.Chain' (fun a b => ¬ (isSpace a = true ∧ isSpace b = true)) w := by
      have : ∀ (l : List Char), (∀ c ∈ l, isSpace c = false) →
          List.Chain' (fun a b => ¬ (isSpace a = true ∧ isSpace b = true)) l := by
        intro l
        induction l with
        | nil => intro _; exact List.chain'_nil
        | cons a t iht =>
          intro hl
          rw [List.chain'_cons']
          refine ⟨?_, iht (fun c hc => hl c (by simp [hc]))⟩
          intro b _
          have := hl a (by simp)
          simp [this]
      exact this w hw.2
    have hhead : ∀ c ∈ w.head?, isSpace c = false := by
      intro c hc
      exact hw.2 c (List.mem_of_mem_head? hc)
    have hlast : ∀ c ∈ w.getLast?, isSpace c = false := by
      intro c hc
      exact hw.2 c (List.mem_of_mem_getLast? hc)
    cases rest with
    | nil =>
      refine ⟨by simpa [joinWords] using hhead, by simpa [joinWords] using hlast, ?_,
        by simpa [joinWords] using hchain⟩
      intro c hc hsp
      have := hw.2 c (by simpa [joinWords] using hc)
      rw [this] at hsp
      exact absurd hsp (by simp)
    | cons v rest2 =>
      obtain ⟨ih1, ih2, ih3, ih4⟩ := ih (fun x hx => hws x (by simp [hx]))
      have hv : IsWord v := hws v (by simp)
      have hne : joinWords (v :: rest2) ≠ [] := by
        cases rest2 with
        | nil => simpa [joinWords] using hv.1
        | cons u r => simp [joinWords, hv.1]
      obtain ⟨c0, cs0, hw0⟩ := List.exists_cons_of_ne_nil hw.1
      refine ⟨?_, ?_, ?_, ?_⟩
      · intro c hc
        rw [joinWords, hw0] at hc
        simp only [List.cons_append, List.head?_cons, Option.mem_def, Option.some.injEq] at hc
        rw [← hc]
        exact hw.2 c0 (by simp [hw0])
      · intro c hc
        rw [joinWords] at hc
        have e : w ++ ' ' :: joinWords (v :: rest2) = (w ++ [' ']) ++ joinWords (v :: rest2) := by
          simp
        rw [e, List.getLast?_append_of_ne_nil _ hne] at hc
        exact ih2 c hc
      · intro c hc hsp
        rw [joinWords] at hc
        simp only [List.mem_append, List.mem_cons] at hc
        rcases hc with hc | hc | hc
        · have := hw.2 c hc
          rw [this] at hsp
          exact absurd hsp (by simp)
        · exact hc
        · exact ih3 c hc hsp
      · rw [joinWords, List.chain'_append]
        refine ⟨hchain, ?_, ?_⟩
        · rw [List.chain'_cons']
          refine ⟨?_, ih4⟩
          intro b hb
          have := ih1 b hb
          simp [this]
        · intro x hx y _
          have := hlast x hx
          simp [this]

/-- The collapse of any string is white-space normalised. -/
theorem collapseSpace_normal (s : String) :
    collapseSpace (collapseSpace s) = collapseSpace s ∧
    (∀ c ∈ (collapseSpace s).data.head?, isSpace c = false) ∧
    (∀ c ∈ (collapseSpace s).data.getLast?, isSpace c = false) ∧
    (∀ c ∈ (collapseSpace s).data, isSpace c = true → c = ' ') ∧
    List.Chain' (fun a b => ¬ (isSpace a = true ∧ isSpace b = true)) (collapseSpace s).data := by
  obtain ⟨ws, hws, hf⟩ := fieldsFrom_words s.data [] (by simp)
  have hdata : (collapseSpace s).data = joinWords ws := by
    rw [collapseSpace, strings_Fields, hf, join_data]
  refine ⟨?_, ?_⟩
  · have : strings_Fields (collapseSpace s) = ws.map String.mk := by
      rw [strings_Fields, hdata, fieldsFrom_joinWords ws hws]
    conv_lhs => rw [collapseSpace, this]
    rw [collapseSpace, strings_Fields, hf]
  · rw [hdata]
    exact joinWords_normal ws hws

/-- C15: for every anchor element, the text of its link is white-space
normalised: splitting it at white space and joining the fields by one space
gives the text back, its first and its last character are not white space,
every white space character in it is the space character, and no two white
space characters are adjacent. -/
theorem buildLink_text_normalised (n : Node) (h : isAnchor n = true) :
    strings_Join (strings_Fields (buildLink n).Text) " " = (buildLink n).Text ∧
    (∀ c ∈ (buildLink n).Text.data.head?, isSpace c = false) ∧
    (∀ c ∈ (buildLink n).Text.data.getLast?, isSpace c = false) ∧
    (∀ c ∈ (buildLink n).Text.data, isSpace c = true → c = ' ') ∧
    List.Chain' (fun a b => ¬ (isSpace a = true ∧ isSpace b = true))
      (buildLink n).Text.data := by
  obtain ⟨type, dataAtom, data, attr, children⟩ := n
  have ha : type = NodeType.ElementNode ∧ dataAtom = atom_A := by
    simpa [isAnchor, Node.type, Node.dataAtom] using h
  have ht : (buildLink (Node.mk type dataAtom data attr children)).Text =
      collapseSpace (extractTextLoop "" children) := by
    simp [buildLink, extractText, ha.1, collapseSpace]
  rw [ht]
  exact collapseSpace_normal _

/-- C15 at a concrete input: the anchor of the test `TestParseEx4`, whose text
is `dog cat`. -/
theorem buildLink_text_normalised_witness :
    (buildLink anchorDogCat).Text = "dog cat" ∧
    strings_Join (strings_Fields (buildLink anchorDogCat).Text) " " =
      (buildLink anchorDogCat).Text :=
  ⟨by decide, (buildLink_text_normalised anchorDogCat (by decide)).1⟩

end Link
